import Mathlib

/-!
Shallow embedding of the ray-tracing core of `2_the-next-week` (Rust).

Scalars are exact rationals.  The code's `f64` values that can become
infinite or NaN (slab-test divisions, quadratic roots with a zero
denominator) are modelled by `Ext` (rationals extended with two
infinities) and `FD := Option Ext` (`none` plays the role of NaN: every
ordered comparison against it is false, as in IEEE-754).  Square roots
are not rational, so every function that calls `f64::sqrt` takes the
square-root function as an explicit parameter `sq : Rat -> Rat`;
theorems that need it assume only `0 <= x -> 0 <= sq x`, and concrete
witnesses supply a function that is exact on the perfect squares they
use.
-/

namespace RT

/-- Extended rationals: the values an `f64` interval endpoint can take in
this program, minus NaN. -/
inductive Ext : Type where
  | ninf : Ext
  | fin : ℚ → Ext
  | pinf : Ext
deriving DecidableEq, Repr

/-- Strict `<` on extended rationals (IEEE order restricted to non-NaN). -/
def elt : Ext → Ext → Bool
  | .ninf, .ninf => false
  | .ninf, .fin _ => true
  | .ninf, .pinf => true
  | .fin _, .ninf => false
  | .fin a, .fin b => decide (a < b)
  | .fin _, .pinf => true
  | .pinf, _ => false

/-- Non-strict `<=` on extended rationals. -/
def ele (a b : Ext) : Bool := !(elt b a)

/-- A possibly-NaN float value: `none` is NaN. -/
abbrev FD : Type := Option Ext

/-- Strict `<` with NaN semantics: any comparison against NaN is false. -/
def fdlt : FD → FD → Bool
  | some x, some y => elt x y
  | _, _ => false

/-- `a - b` for an extended minuend and finite subtrahend. -/
def esub : Ext → ℚ → Ext
  | .fin q, b => .fin (q - b)
  | .ninf, _ => .ninf
  | .pinf, _ => .pinf

/-- IEEE division of a finite numerator by a (possibly zero) finite
denominator: `x / 0` is a signed infinity, `0 / 0` is NaN. -/
def qdivE (n d : ℚ) : FD :=
  if d ≠ 0 then some (.fin (n / d))
  else if 0 < n then some .pinf
  else if n < 0 then some .ninf
  else none

/-- IEEE division of an extended numerator by a finite denominator
(`inf / 0 = inf` because the rational zero stands for `+0.0`). -/
def ediv : Ext → ℚ → FD
  | .fin q, d => qdivE q d
  | .pinf, d => if d < 0 then some .ninf else some .pinf
  | .ninf, d => if d < 0 then some .pinf else some .ninf

/-- `Interval` from `interval.rs`, at the `f64` instantiation used by the
renderer; endpoints may be infinite (`Interval::empty`, `::universe`). -/
structure Interval where
  min : Ext
  max : Ext
deriving DecidableEq, Repr

/-- `Interval::new`. -/
def Interval.mk' (mn mx : Ext) : Interval := ⟨mn, mx⟩

/-- `Interval::contains` (closed test). -/
def Interval.contains (i : Interval) (v : Ext) : Bool :=
  ele i.min v && ele v i.max

/-- `Interval::surrounds` (open test). -/
def Interval.surrounds (i : Interval) (v : Ext) : Bool :=
  elt i.min v && elt v i.max

/-- `Interval::combine_new`: union of the bounding intervals, with the
source's exact conditional shape. -/
def Interval.combine_new (a b : Interval) : Interval :=
  ⟨if elt a.min b.min then a.min else b.min,
   if elt b.max a.max then a.max else b.max⟩

/-- `Interval::empty`. -/
def Interval.emptyI : Interval := ⟨.pinf, .ninf⟩

/-- `Interval::universe`. -/
def Interval.universe : Interval := ⟨.ninf, .pinf⟩

/-- `Vector<f64, 3>` from `vec.rs`. -/
structure Vec3 where
  x : ℚ
  y : ℚ
  z : ℚ
deriving DecidableEq, Repr

def Vec3.add (a b : Vec3) : Vec3 := ⟨a.x + b.x, a.y + b.y, a.z + b.z⟩

def Vec3.sub (a b : Vec3) : Vec3 := ⟨a.x - b.x, a.y - b.y, a.z - b.z⟩

def Vec3.hmul (a b : Vec3) : Vec3 := ⟨a.x * b.x, a.y * b.y, a.z * b.z⟩

def Vec3.smul (a : Vec3) (s : ℚ) : Vec3 := ⟨a.x * s, a.y * s, a.z * s⟩

def Vec3.sdiv (a : Vec3) (s : ℚ) : Vec3 := ⟨a.x / s, a.y / s, a.z / s⟩

def Vec3.sadd (a : Vec3) (s : ℚ) : Vec3 := ⟨a.x + s, a.y + s, a.z + s⟩

def Vec3.neg (a : Vec3) : Vec3 := ⟨-a.x, -a.y, -a.z⟩

/-- `Vector::dot`. -/
def Vec3.dot (a b : Vec3) : ℚ := a.x * b.x + a.y * b.y + a.z * b.z

/-- `Vector::length_squared`. -/
def Vec3.length_squared (a : Vec3) : ℚ := a.dot a

/-- `Vector::length`, with the square root supplied as an oracle. -/
def Vec3.length (sq : ℚ → ℚ) (a : Vec3) : ℚ := sq a.length_squared

/-- `Vector::unit_vector`: divide every component by the length. -/
def Vec3.unit_vector (sq : ℚ → ℚ) (a : Vec3) : Vec3 :=
  a.sdiv (a.length sq)

/-- `Vector::near_zero`: every component has magnitude below `1e-8`. -/
def Vec3.near_zero (a : Vec3) : Bool :=
  let d : ℚ := 1 / 100000000
  decide (a.x < d) && decide (-d < a.x) &&
  decide (a.y < d) && decide (-d < a.y) &&
  decide (a.z < d) && decide (-d < a.z)

/-- `Vector::reflect`: `v - n * dot(v, n) * 2`. -/
def Vec3.reflect (v n : Vec3) : Vec3 :=
  v.sub ((n.smul (v.dot n)).smul 2)

/-- `Vector::refract`; `abs().sqrt()` goes through the oracle. -/
def Vec3.refract (sq : ℚ → ℚ) (v n : Vec3) (refraction_ratio : ℚ) : Vec3 :=
  let cos_theta := min (v.neg.dot n) 1
  let r_out_perpendicular := (v.add (n.smul cos_theta)).smul refraction_ratio
  let r_out_parallel := (n.neg).smul (sq |1 - r_out_perpendicular.length_squared|)
  r_out_perpendicular.add r_out_parallel

/-- Component access by axis index, mirroring `Vector`'s `Index`. -/
def Vec3.nth (a : Vec3) : Fin 3 → ℚ
  | 0 => a.x
  | 1 => a.y
  | 2 => a.z

/-- The zero vector (`Vector::default`). -/
def Vec3.zero : Vec3 := ⟨0, 0, 0⟩

/-- `Ray<f64, 3>` from `ray.rs`. -/
structure Ray where
  origin : Vec3
  direction : Vec3
  time : ℚ
deriving DecidableEq, Repr

/-- `Ray::at`. -/
def Ray.at (r : Ray) (t : ℚ) : Vec3 := r.origin.add (r.direction.smul t)

/-- `AABB<f64, 3>` from `aabb.rs`: one interval per axis. -/
structure AABB where
  ix : Interval
  iy : Interval
  iz : Interval
deriving DecidableEq, Repr

def AABB.nth (b : AABB) : Fin 3 → Interval
  | 0 => b.ix
  | 1 => b.iy
  | 2 => b.iz

/-- `AABB::empty`. -/
def AABB.emptyB : AABB := ⟨Interval.emptyI, Interval.emptyI, Interval.emptyI⟩

/-- `AABB::combine_new` (elementwise interval union). -/
def AABB.combine_new (a b : AABB) : AABB :=
  ⟨a.ix.combine_new b.ix, a.iy.combine_new b.iy, a.iz.combine_new b.iz⟩

/-- The guarded store `if t > interval.min then interval.min = t`, with
NaN (`none`) never written because every comparison against it is false. -/
def updMin (mn : Ext) (t : FD) : Ext :=
  match t with
  | some x => if elt mn x then x else mn
  | none => mn

/-- The guarded store `if t < interval.max then interval.max = t`. -/
def updMax (mx : Ext) (t : FD) : Ext :=
  match t with
  | some x => if elt x mx then x else mx
  | none => mx

/-- One axis of the slab test in `AABB::hit`: compute both crossing
parameters, order them by the (NaN-aware) `t0 < t1` comparison, and
narrow the running interval. -/
def slabStep (lo hi : Ext) (o d : ℚ) (mn mx : Ext) : Ext × Ext :=
  let t0 := ediv (esub lo o) d
  let t1 := ediv (esub hi o) d
  if fdlt t0 t1 then (updMin mn t0, updMax mx t1)
  else (updMin mn t1, updMax mx t0)

/-- The loop of `AABB::hit` over the per-axis data `(interval, origin,
direction)`, with the source's early `interval.min >= interval.max`
exit. -/
def slabFold : List (Interval × ℚ × ℚ) → Ext → Ext → Bool
  | [], _, _ => true
  | (iv, o, d) :: rest, mn, mx =>
      let s := slabStep iv.min iv.max o d mn mx
      if ele s.2 s.1 then false else slabFold rest s.1 s.2

/-- `AABB::hit`: the slab test over the three axes. -/
def AABB.hit (b : AABB) (r : Ray) (i : Interval) : Bool :=
  slabFold [(b.ix, r.origin.x, r.direction.x),
            (b.iy, r.origin.y, r.direction.y),
            (b.iz, r.origin.z, r.direction.z)] i.min i.max

example : Interval.universe.surrounds (.fin 3) = true := by decide
example : qdivE 1 0 = some .pinf := by decide
example : qdivE 0 0 = none := by decide

/-- `HitRecord` from `hittable.rs` (`tex` is always `Vec2::default()` for
spheres, kept as a pair). -/
structure HitRecord where
  point : Vec3
  normal : Vec3
  tex : ℚ × ℚ
  t_value : ℚ
  front_face : Bool
deriving DecidableEq, Repr

/-- `HitRecord::new`: flip the outward normal against the ray. -/
def HitRecord.make (ray : Ray) (out_normal point : Vec3) (tex_hit : ℚ × ℚ)
    (t_value : ℚ) : HitRecord :=
  let front_face := decide (ray.direction.dot out_normal < 0)
  { point := point
    normal := if front_face then out_normal else out_normal.neg
    tex := tex_hit
    t_value := t_value
    front_face := front_face }

/-- `Color` (an RGB triple with `Vec3` arithmetic). -/
abbrev Color : Type := Vec3

/-- `ScatterResult` from `material.rs`. -/
structure ScatterResult where
  ray : Ray
  attenuation : Color
deriving DecidableEq, Repr

/-- The `Material` trait object: its only capability is `scatter`. -/
abbrev Material : Type := Ray → HitRecord → Option ScatterResult

/-- `HitResult`: a record plus the primitive's optional material. -/
structure HitResult where
  record : HitRecord
  material : Option Material

/-- `Sphere` from `hittable.rs`. -/
structure Sphere where
  center : Vec3
  radius : ℚ
  material : Option Material
  bbox : AABB
  is_moving : Bool
  center_vec : Vec3

/-- `Sphere::new`: a static sphere with the circumscribed box. -/
def Sphere.new (center : Vec3) (radius : ℚ) (material : Option Material) : Sphere :=
  { center := center
    radius := radius
    material := material
    bbox := ⟨⟨.fin (center.x - radius), .fin (center.x + radius)⟩,
             ⟨.fin (center.y - radius), .fin (center.y + radius)⟩,
             ⟨.fin (center.z - radius), .fin (center.z + radius)⟩⟩
    is_moving := false
    center_vec := Vec3.zero }

/-- `Sphere::new_moving`: box is the union of the two endpoint boxes. -/
def Sphere.new_moving (center1 center2 : Vec3) (radius : ℚ)
    (material : Option Material) : Sphere :=
  let bbox1 : AABB :=
    ⟨⟨.fin (center1.x - radius), .fin (center1.x + radius)⟩,
     ⟨.fin (center1.y - radius), .fin (center1.y + radius)⟩,
     ⟨.fin (center1.z - radius), .fin (center1.z + radius)⟩⟩
  let bbox2 : AABB :=
    ⟨⟨.fin (center2.x - radius), .fin (center2.x + radius)⟩,
     ⟨.fin (center2.y - radius), .fin (center2.y + radius)⟩,
     ⟨.fin (center2.z - radius), .fin (center2.z + radius)⟩⟩
  { center := center1
    radius := radius
    material := material
    bbox := bbox1.combine_new bbox2
    is_moving := true
    center_vec := center2.sub center1 }

/-- `Sphere::sphere_center`: time-dependent center. -/
def Sphere.sphere_center (s : Sphere) (time : ℚ) : Vec3 :=
  s.center.add (s.center_vec.smul time)

/-- A `surrounds` test on a possibly-NaN value; false on NaN, exactly as
the two IEEE comparisons inside `Interval::surrounds` behave. -/
def surroundsF (i : Interval) (v : FD) : Bool :=
  match v with
  | some x => i.surrounds x
  | none => false

/-- The sphere center `Sphere::hit` starts from. -/
def Sphere.cur_center (s : Sphere) (ray : Ray) : Vec3 :=
  if s.is_moving then s.sphere_center ray.time else s.center

/-- `oc = ray.origin - center` in `Sphere::hit`. -/
def Sphere.oc (s : Sphere) (ray : Ray) : Vec3 :=
  ray.origin.sub (s.cur_center ray)

/-- `b_half = oc.dot(ray.direction)` in `Sphere::hit`. -/
def Sphere.b_half (s : Sphere) (ray : Ray) : ℚ :=
  (s.oc ray).dot ray.direction

/-- The discriminant `d = b_half^2 - a*c` in `Sphere::hit`. -/
def Sphere.disc (s : Sphere) (ray : Ray) : ℚ :=
  s.b_half ray * s.b_half ray -
    ray.direction.length_squared * ((s.oc ray).length_squared - s.radius * s.radius)

/-- `root1 = (-b_half - d.sqrt()) / a` as an IEEE division. -/
def Sphere.root1 (sq : ℚ → ℚ) (s : Sphere) (ray : Ray) : FD :=
  qdivE (-s.b_half ray - sq (s.disc ray)) ray.direction.length_squared

/-- `root2 = (-b_half + d.sqrt()) / a` as an IEEE division. -/
def Sphere.root2 (sq : ℚ → ℚ) (s : Sphere) (ray : Ray) : FD :=
  qdivE (-s.b_half ray + sq (s.disc ray)) ray.direction.length_squared

/-- The root-selection match in `Sphere::hit`: `root1` if the range
strictly surrounds it, else `root2` if it does, else a miss. -/
def rootSelect (t_range : Interval) (root1 root2 : FD) : FD :=
  match surroundsF t_range root1, surroundsF t_range root2 with
  | false, false => none
  | false, true => root2
  | true, _ => root1

/-- The `HitResult` `Sphere::hit` builds from a selected root.  Note the
source computes the outward normal from `self.center`, not from the
time-dependent center. -/
def Sphere.mkHit (s : Sphere) (ray : Ray) (root : ℚ) : HitResult :=
  let point := ray.at root
  let out_normal := (point.sub s.center).sdiv s.radius
  { record := HitRecord.make ray out_normal point (0, 0) root
    material := s.material }

/-- `Sphere::hit`.  The roots are IEEE divisions (the denominator
`a = |dir|^2` may be zero); a root only survives the open-interval test
when it is finite, so the final match extracts the rational (the other
branches are unreachable after a successful selection). -/
def Sphere.hit (sq : ℚ → ℚ) (s : Sphere) (ray : Ray) (t_range : Interval) :
    Option HitResult :=
  if s.disc ray < 0 then none
  else
    match rootSelect t_range (s.root1 sq ray) (s.root2 sq ray) with
    | some (.fin root) => some (s.mkHit ray root)
    | _ => none

/-- The loop body of `HittableList::hit`: fold the members through the
shrinking `(t_range.min, t_closest)` window. -/
def listHitAux (sq : ℚ → ℚ) (ray : Ray) (lo : Ext) :
    List Sphere → Ext → Option HitResult → Option HitResult
  | [], _, cur => cur
  | o :: rest, t_closest, cur =>
      match Sphere.hit sq o ray ⟨lo, t_closest⟩ with
      | some h => listHitAux sq ray lo rest (.fin h.record.t_value) (some h)
      | none => listHitAux sq ray lo rest t_closest cur

/-- `HittableList::hit` over the list of member spheres. -/
def listHit (sq : ℚ → ℚ) (objects : List Sphere) (ray : Ray) (t_range : Interval) :
    Option HitResult :=
  listHitAux sq ray t_range.min objects t_range.max none

/-- The hittables reachable from a `BvhNode`: leaves are spheres,
internal nodes hold two optional children and a box (`bvh.rs`). -/
inductive Hittable : Type where
  | sphere (s : Sphere) : Hittable
  | node (left right : Option Hittable) (bbox : AABB) : Hittable

/-- The bounding box a `dyn Hittable` reports. -/
def Hittable.bounding_box : Hittable → AABB
  | .sphere s => s.bbox
  | .node _ _ b => b

/-- `Hittable::bounding_box` of an optional child, defaulting to
`AABB::empty` as in `BvhNode`'s `unwrap_or` calls. -/
def boxOf : Option Hittable → AABB
  | some h => h.bounding_box
  | none => AABB.emptyB

/-- `BvhNode::hit` (and `Sphere::hit` at the leaves): prune by the node
box, query left with the full range, right with the range narrowed to
the left hit, and keep the smaller `t`. -/
def Hittable.hit (sq : ℚ → ℚ) : Hittable → Ray → Interval → Option HitResult
  | .sphere s, ray, t_range => Sphere.hit sq s ray t_range
  | .node l r bbox, ray, t_range =>
      if AABB.hit bbox ray t_range = false then none
      else
        let left_hit := match l with
          | some c => Hittable.hit sq c ray t_range
          | none => none
        let t_max := match left_hit with
          | some h => Ext.fin h.record.t_value
          | none => t_range.max
        let right_hit := match r with
          | some c => Hittable.hit sq c ray ⟨t_range.min, t_max⟩
          | none => none
        match left_hit, right_hit with
        | none, none => none
        | none, some h => some h
        | some h, none => some h
        | some a, some b =>
            if a.record.t_value < b.record.t_value then some a else some b

/-- `BvhNode::split`, with an explicit recursion-depth budget: `none`
means the budget ran out.  On the empty list the source recurses on the
empty list forever, which here exhausts any budget. -/
def splitF : ℕ → List Sphere → Option (Option Hittable × Option Hittable)
  | _, [a] => some (some (.sphere a), none)
  | _, [a, b] => some (some (.sphere b), some (.sphere a))
  | 0, _ => none
  | fuel + 1, l =>
      let mid := l.length / 2
      match splitF fuel (l.take mid), splitF fuel (l.drop mid) with
      | some lp, some rp =>
          some (some (.node lp.1 lp.2 ((boxOf lp.1).combine_new (boxOf lp.2))),
                some (.node rp.1 rp.2 ((boxOf rp.1).combine_new (boxOf rp.2))))
      | _, _ => none

/-- `BvhNode::new` applied to an already-ordered list (the source sorts
by a random axis first; the theorems quantify over the permutation).
The fallback branch is unreachable for a non-empty input. -/
def bvhNew (objects : List Sphere) : Hittable :=
  match splitF objects.length objects with
  | some (left, right) =>
      .node left right ((boxOf left).combine_new (boxOf right))
  | none => .node none none AABB.emptyB

/-- `Lambertian::scatter` from `material.rs`; the sampled unit vector is
passed in as the random draw. -/
def Lambertian.scatter (albedo : Color) (random_unit : Vec3) (ray : Ray)
    (hit_record : HitRecord) : Option ScatterResult :=
  let scatter_direction := hit_record.normal.add random_unit
  let scatter_direction :=
    if scatter_direction.near_zero then hit_record.normal else scatter_direction
  some { ray := { origin := hit_record.point
                  direction := scatter_direction
                  time := ray.time }
         attenuation := albedo }

/-- `Metal::scatter`; the unit-ball sample is passed in as the draw and
the unit-vector normalisation goes through the square-root oracle. -/
def Metal.scatter (sq : ℚ → ℚ) (albedo : Color) (fuzz : ℚ)
    (random_in_sphere : Vec3) (ray : Ray) (hit_record : HitRecord) :
    Option ScatterResult :=
  let reflected := ((ray.direction.unit_vector sq).reflect hit_record.normal).add
    (random_in_sphere.smul fuzz)
  if 0 < reflected.dot hit_record.normal then
    some { ray := { origin := hit_record.point
                    direction := reflected
                    time := ray.time }
           attenuation := albedo }
  else none

/-- `Dielectric::reflectance` (Schlick approximation). -/
def Dielectric.reflectance (cosine refractive_index : ℚ) : ℚ :=
  let r0 := (1 - refractive_index) / (1 + refractive_index)
  let r0 := r0 * r0
  r0 + (1 - r0) * (1 - cosine) ^ (5 : ℕ)

/-- `Dielectric::scatter`; the canonical uniform draw is passed in. -/
def Dielectric.scatter (sq : ℚ → ℚ) (refractive_index : ℚ) (random_canonical : ℚ)
    (ray : Ray) (hit_record : HitRecord) : Option ScatterResult :=
  let refraction_ratio :=
    if hit_record.front_face then 1 / refractive_index else refractive_index
  let unit_direction := ray.direction.unit_vector sq
  let cos_theta := min (unit_direction.neg.dot hit_record.normal) 1
  let sin_theta := sq (1 - cos_theta * cos_theta)
  let cannot_refract :=
    decide (1 < refraction_ratio * sin_theta) ||
    decide (random_canonical < Dielectric.reflectance cos_theta refraction_ratio)
  let scatter :=
    if cannot_refract then unit_direction.reflect hit_record.normal
    else Vec3.refract sq unit_direction hit_record.normal refraction_ratio
  some { ray := { origin := hit_record.point
                  direction := scatter
                  time := ray.time }
         attenuation := ⟨1, 1, 1⟩ }

/-- The miss branch of `ray_color`: normalise the direction and lerp
between white and the sky blue. -/
def skyColor (sq : ℚ → ℚ) (ray : Ray) : Color :=
  let direction := ray.direction.unit_vector sq
  let a := 1 / 2 * (direction.y + 1)
  ((⟨1, 1, 1⟩ : Color).smul (1 - a)).add ((⟨1 / 2, 7 / 10, 1⟩ : Color).smul a)

/-- `RayTracer::ray_color` over an abstract scene hit function (the
`&dyn Hittable` argument), by recursion on the depth budget.  The shadow
acne window is `(0.001, +inf)`. -/
def rayColor (sq : ℚ → ℚ) (hitFn : Ray → Interval → Option HitResult) :
    ℕ → Ray → Color
  | 0, _ => ⟨0, 0, 0⟩
  | depth + 1, ray =>
      match hitFn ray ⟨.fin (1 / 1000), .pinf⟩ with
      | some hr =>
          let normal := hr.record.normal
          match hr.material >>= fun m => m ray hr.record with
          | some sc => sc.attenuation.hmul (rayColor sq hitFn depth sc.ray)
          | none => (normal.smul (1 / 2)).sadd (1 / 2)
      | none => skyColor sq ray

/-- The width derivation in `RayTracer::new`: `(height as f64 *
aspect_ratio) as u32`, a truncation toward zero clamped below at 0. -/
def tracerWidth (height : ℕ) (aspect_ratio : ℚ) : ℕ :=
  ⌊(height : ℚ) * aspect_ratio⌋.toNat

/-- The viewport quantities of `RayTracer::new` that the width feeds
into; `h = tan(vfov.to_radians() / 2)` is transcendental and is passed
in as `h_tan`. -/
structure ViewDerive where
  width : ℕ
  actual_ratio : ℚ
  view_height : ℚ
  view_width : ℚ

/-- Lines 88-93 of `ray_tracer.rs`. -/
def tracerDerive (height : ℕ) (aspect_ratio h_tan focus_distance : ℚ) : ViewDerive :=
  let width := tracerWidth height aspect_ratio
  let actual_ratio := (width : ℚ) / (height : ℚ)
  let view_height := 2 * h_tan * focus_distance
  let view_width := view_height * actual_ratio
  { width := width
    actual_ratio := actual_ratio
    view_height := view_height
    view_width := view_width }

/-- `chunk_size` in `render_multi`. -/
def chunkSize (height workers : ℕ) : ℕ := height / workers

/-- `num_steps` for worker `i` in `render_multi`. -/
def numSteps (height workers i : ℕ) : ℕ :=
  if chunkSize height workers * workers + i < height
  then chunkSize height workers + 1
  else chunkSize height workers

/-- The rows worker `i` renders: `count * concurrency_level + i`. -/
def workerRows (height workers i : ℕ) : List ℕ :=
  (List.range (numSteps height workers i)).map (fun count => count * workers + i)

/-- The pixel indices worker `i` sends, in order: `row * width + col`. -/
def workerWrites (width height workers i : ℕ) : List ℕ :=
  ((workerRows height workers i).map
    (fun row => (List.range width).map (fun col => row * width + col))).flatten

/-- Every index written during `render_multi`, across all workers. -/
def renderWrites (width height workers : ℕ) : List ℕ :=
  ((List.range workers).map (fun i => workerWrites width height workers i)).flatten

/-- The parameter `t` of an optional hit. -/
def hitT (o : Option HitResult) : Option ℚ :=
  o.map fun h => h.record.t_value

/-- The `t` values of all member hits for one fixed query interval. -/
def memberTs (sq : ℚ → ℚ) (objects : List Sphere) (ray : Ray) (t_range : Interval) :
    List ℚ :=
  objects.filterMap fun s => hitT (Sphere.hit sq s ray t_range)

/-- Minimum of a list of rationals, `none` when empty. -/
def optMin : List ℚ → Option ℚ
  | [] => none
  | x :: xs =>
      match optMin xs with
      | none => some x
      | some m => some (min x m)

/-- A point strictly inside a box on every axis. -/
def insideBox (p : Vec3) (b : AABB) : Bool :=
  b.ix.surrounds (.fin p.x) && b.iy.surrounds (.fin p.y) && b.iz.surrounds (.fin p.z)

/-- Interval containment `a` inside `b`. -/
def intvLe (a b : Interval) : Bool :=
  ele b.min a.min && ele a.max b.max

/-- Box containment `a` inside `b` on every axis. -/
def boxLe (a b : AABB) : Bool :=
  intvLe a.ix b.ix && intvLe a.iy b.iy && intvLe a.iz b.iz

/-- The spheres at the leaves of a BVH subtree, left to right. -/
def leaves : Hittable → List Sphere
  | .sphere s => [s]
  | .node l r _ =>
      (match l with | some c => leaves c | none => []) ++
      (match r with | some c => leaves c | none => [])

/-- A structurally well-formed BVH: every node's box contains both
children's boxes.  Trees produced by `BvhNode::split` satisfy this. -/
def wfB : Hittable → Bool
  | .sphere _ => true
  | .node l r b =>
      (match l with | some c => wfB c && boxLe c.bounding_box b | none => true) &&
      (match r with | some c => wfB c && boxLe c.bounding_box b | none => true)

/-- Node count, the measure for induction over `Hittable` trees. -/
def sizeT : Hittable → ℕ
  | .sphere _ => 1
  | .node l r _ =>
      1 + (match l with | some c => sizeT c | none => 0) +
        (match r with | some c => sizeT c | none => 0)

/-- Leaves of an optional child. -/
def leavesO : Option Hittable → List Sphere
  | some t => leaves t
  | none => []

/-- Well-formedness of an optional child. -/
def wfO : Option Hittable → Bool
  | some t => wfB t
  | none => true

/-- The hit of an optional child (an absent child misses). -/
def hitO (sq : ℚ → ℚ) (o : Option Hittable) (ray : Ray) (i : Interval) :
    Option HitResult :=
  match o with
  | some c => Hittable.hit sq c ray i
  | none => none

/-- The final match of `BvhNode::hit`: keep the smaller-`t` child hit. -/
def nodeCombine (a b : Option HitResult) : Option HitResult :=
  match a, b with
  | none, none => none
  | none, some h => some h
  | some h, none => some h
  | some x, some y =>
      if x.record.t_value < y.record.t_value then some x else some y

/-- The upper bound the right child is queried with. -/
def tmaxOf (a : Option HitResult) (d : Ext) : Ext :=
  match a with
  | some h => Ext.fin h.record.t_value
  | none => d

theorem elt_irrefl (a : Ext) : elt a a = false := by
  cases a <;> simp [elt]

theorem elt_asymm {a b : Ext} (h : elt a b = true) : elt b a = false := by
  cases a <;> cases b <;> simp_all [elt] <;> linarith

theorem elt_trans {a b c : Ext} (h1 : elt a b = true) (h2 : elt b c = true) :
    elt a c = true := by
  cases a <;> cases b <;> cases c <;> simp_all [elt] <;> linarith

theorem ele_iff_not_elt {a b : Ext} : ele a b = true ↔ elt b a = false := by
  simp [ele]

theorem ele_refl (a : Ext) : ele a a = true := by
  simp [ele, elt_irrefl]

theorem ele_of_elt {a b : Ext} (h : elt a b = true) : ele a b = true := by
  simp [ele, elt_asymm h]

theorem elt_total {a b : Ext} (h : elt a b = false) (h2 : a ≠ b) : elt b a = true := by
  cases a with
  | ninf => cases b <;> simp_all [elt]
  | pinf => cases b <;> simp_all [elt]
  | fin qa =>
      cases b with
      | ninf => simp_all [elt]
      | pinf => simp_all [elt]
      | fin qb =>
          simp only [elt, decide_eq_false_iff_not, not_lt] at h
          simp only [elt, decide_eq_true_eq]
          have hne : qa ≠ qb := fun e => h2 (by rw [e])
          exact lt_of_le_of_ne h fun e => hne e.symm

theorem ele_trans {a b c : Ext} (h1 : ele a b = true) (h2 : ele b c = true) :
    ele a c = true := by
  rw [ele_iff_not_elt] at *
  by_contra hc
  simp only [Bool.not_eq_false] at hc
  by_cases hab : a = b
  · subst hab; simp_all
  · have := elt_total h1 (Ne.symm hab)
    have := elt_trans hc this
    by_cases hbc : b = c
    · subst hbc; simp_all [elt_irrefl]
    · simp_all

theorem elt_of_elt_of_ele {a b c : Ext} (h1 : elt a b = true) (h2 : ele b c = true) :
    elt a c = true := by
  rw [ele_iff_not_elt] at h2
  by_cases hbc : b = c
  · subst hbc; exact h1
  · exact elt_trans h1 (elt_total h2 fun hh => hbc hh.symm)

theorem elt_of_ele_of_elt {a b c : Ext} (h1 : ele a b = true) (h2 : elt b c = true) :
    elt a c = true := by
  rw [ele_iff_not_elt] at h1
  by_cases hab : a = b
  · subst hab; exact h2
  · exact elt_trans (elt_total h1 fun hh => hab hh.symm) h2

theorem elt_fin_fin {a b : ℚ} : elt (.fin a) (.fin b) = true ↔ a < b := by
  simp [elt]

theorem ele_fin_fin {a b : ℚ} : ele (.fin a) (.fin b) = true ↔ a ≤ b := by
  simp [ele, elt, not_lt]

theorem elt_to_ninf (a : Ext) : elt a .ninf = false := by
  cases a <;> simp [elt]

theorem elt_from_pinf (a : Ext) : elt .pinf a = false := by
  cases a <;> simp [elt]

theorem optMin_eq_none_iff {l : List ℚ} : optMin l = none ↔ l = [] := by
  cases l with
  | nil => simp [optMin]
  | cons x xs =>
      simp only [optMin]
      cases optMin xs <;> simp

theorem optMin_mem {l : List ℚ} {x : ℚ} (h : optMin l = some x) :
    x ∈ l ∧ ∀ y ∈ l, x ≤ y := by
  induction l generalizing x with
  | nil => simp [optMin] at h
  | cons a as ih =>
      simp only [optMin] at h
      cases hm : optMin as with
      | none =>
          rw [hm] at h
          have : as = [] := optMin_eq_none_iff.mp hm
          subst this
          simp only [Option.some.injEq] at h
          subst h
          simp
      | some m =>
          rw [hm] at h
          simp only [Option.some.injEq] at h
          obtain ⟨hmem, hmin⟩ := ih hm
          subst h
          constructor
          · rcases le_total a m with hle | hle
            · simp [min_eq_left hle]
            · right
              rw [min_eq_right hle]
              exact hmem
          · intro y hy
            rcases List.mem_cons.mp hy with hy | hy
            · simp [hy, min_le_left]
            · exact le_trans (min_le_right a m) (hmin y hy)

theorem optMin_of_mem {l : List ℚ} {x : ℚ} (hx : x ∈ l) (hmin : ∀ y ∈ l, x ≤ y) :
    optMin l = some x := by
  induction l with
  | nil => simp at hx
  | cons a as ih =>
      simp only [optMin]
      cases hm : optMin as with
      | none =>
          have : as = [] := optMin_eq_none_iff.mp hm
          subst this
          simp at hx
          simp [hx]
      | some m =>
          obtain ⟨hmem, hmn⟩ := optMin_mem hm
          rcases List.mem_cons.mp hx with hx | hx
          · subst hx
            have : x ≤ m := hmin m (by simp [hmem])
            simp [min_eq_left this]
          · have h1 : x ≤ a := hmin a (by simp)
            have h2 : m ≤ x := hmn x hx
            have h3 : x ≤ m := hmin m (by simp [hmem])
            have : m = x := le_antisymm h2 h3
            subst this
            simp [min_eq_right h1]

/-- C7: every material's scatter, whenever it returns a result, gives the
scattered ray the incident ray's time. -/
theorem c7_scatter_preserves_time :
    (∀ (albedo : Color) (random_unit : Vec3) (ray : Ray) (rec : HitRecord)
        (res : ScatterResult),
        Lambertian.scatter albedo random_unit ray rec = some res →
        res.ray.time = ray.time)
    ∧ (∀ (sq : ℚ → ℚ) (albedo : Color) (fuzz : ℚ) (random_in_sphere : Vec3)
        (ray : Ray) (rec : HitRecord) (res : ScatterResult),
        Metal.scatter sq albedo fuzz random_in_sphere ray rec = some res →
        res.ray.time = ray.time)
    ∧ (∀ (sq : ℚ → ℚ) (refractive_index random_canonical : ℚ)
        (ray : Ray) (rec : HitRecord) (res : ScatterResult),
        Dielectric.scatter sq refractive_index random_canonical ray rec = some res →
        res.ray.time = ray.time) := by
  refine ⟨?_, ?_, ?_⟩
  · intro albedo ru ray rec res h
    simp only [Lambertian.scatter, Option.some.injEq] at h
    subst h
    rfl
  · intro sq albedo fuzz ris ray rec res h
    simp only [Metal.scatter] at h
    split at h
    · simp only [Option.some.injEq] at h
      subst h
      rfl
    · exact absurd h (by simp)
  · intro sq ri rc ray rec res h
    simp only [Dielectric.scatter, Option.some.injEq] at h
    subst h
    rfl

/-- C7 witness: a concrete metal scatter that succeeds and keeps the
incident time. -/
theorem c7_witness :
    Metal.scatter (fun _ => 1) ⟨1, 0, 0⟩ 0 Vec3.zero
        ⟨Vec3.zero, ⟨0, 0, -1⟩, 1 / 2⟩
        ⟨Vec3.zero, ⟨0, 0, 1⟩, (0, 0), 1, true⟩ =
      some ⟨⟨Vec3.zero, ⟨0, 0, 1⟩, 1 / 2⟩, ⟨1, 0, 0⟩⟩
    ∧ (⟨⟨Vec3.zero, ⟨0, 0, 1⟩, 1 / 2⟩, (⟨1, 0, 0⟩ : Color)⟩ :
        ScatterResult).ray.time = (⟨Vec3.zero, ⟨0, 0, -1⟩, 1 / 2⟩ : Ray).time :=
  have heval : Metal.scatter (fun _ => 1) ⟨1, 0, 0⟩ 0 Vec3.zero
      ⟨Vec3.zero, ⟨0, 0, -1⟩, 1 / 2⟩ ⟨Vec3.zero, ⟨0, 0, 1⟩, (0, 0), 1, true⟩ =
      some ⟨⟨Vec3.zero, ⟨0, 0, 1⟩, 1 / 2⟩, ⟨1, 0, 0⟩⟩ := by
    norm_num [Metal.scatter, Vec3.unit_vector, Vec3.length, Vec3.length_squared,
      Vec3.dot, Vec3.reflect, Vec3.sub, Vec3.add, Vec3.smul, Vec3.sdiv, Vec3.zero]
  ⟨heval, c7_scatter_preserves_time.2.1 (fun _ => 1) ⟨1, 0, 0⟩ 0 Vec3.zero
    ⟨Vec3.zero, ⟨0, 0, -1⟩, 1 / 2⟩ ⟨Vec3.zero, ⟨0, 0, 1⟩, (0, 0), 1, true⟩
    ⟨⟨Vec3.zero, ⟨0, 0, 1⟩, 1 / 2⟩, ⟨1, 0, 0⟩⟩ heval⟩

/-- C8 counterexample: the code truncates `height * aspect_ratio`; at
height 100 and ratio 1.999 it yields 199 where rounding gives 200. -/
theorem c8_counterexample :
    tracerWidth 100 (1999 / 1000) = 199 ∧
    (round ((100 : ℚ) * (1999 / 1000))).toNat = 200 ∧
    tracerWidth 100 (1999 / 1000) ≠ (round ((100 : ℚ) * (1999 / 1000))).toNat := by
  have h1 : tracerWidth 100 (1999 / 1000) = 199 := by
    unfold tracerWidth
    rw [show ((100 : ℕ) : ℚ) * (1999 / 1000) = ((1999 : ℤ) : ℚ) / ((10 : ℕ) : ℚ) by
      push_cast; norm_num]
    rw [Rat.floor_intCast_div_natCast]
    decide
  have h2 : (round ((100 : ℚ) * (1999 / 1000))).toNat = 200 := by
    rw [round_eq]
    rw [show (100 : ℚ) * (1999 / 1000) + 1 / 2 = ((1002 : ℤ) : ℚ) / ((5 : ℕ) : ℚ) by
      push_cast; norm_num]
    rw [Rat.floor_intCast_div_natCast]
    decide
  exact ⟨h1, h2, by rw [h1, h2]; decide⟩

/-- C8 amended: the derived width is the truncation (floor, for a
non-negative product) of `height * aspect_ratio`, and the viewport width
uses the aspect ratio recomputed from the integer width and height. -/
theorem c8_amended (height : ℕ) (aspect_ratio h_tan focus_distance : ℚ)
    (h0 : 0 ≤ (height : ℚ) * aspect_ratio) :
    (((tracerDerive height aspect_ratio h_tan focus_distance).width : ℚ) ≤
        (height : ℚ) * aspect_ratio
      ∧ (height : ℚ) * aspect_ratio <
        ((tracerDerive height aspect_ratio h_tan focus_distance).width : ℚ) + 1)
    ∧ (tracerDerive height aspect_ratio h_tan focus_distance).view_width =
        (tracerDerive height aspect_ratio h_tan focus_distance).view_height *
          (((tracerDerive height aspect_ratio h_tan focus_distance).width : ℚ) /
            (height : ℚ)) := by
  have hfl : (0 : ℤ) ≤ ⌊(height : ℚ) * aspect_ratio⌋ := Int.floor_nonneg.mpr h0
  have hcast : ((⌊(height : ℚ) * aspect_ratio⌋.toNat : ℕ) : ℚ) =
      ((⌊(height : ℚ) * aspect_ratio⌋ : ℤ) : ℚ) := by
    exact_mod_cast Int.toNat_of_nonneg hfl
  constructor
  · constructor
    · show ((⌊(height : ℚ) * aspect_ratio⌋.toNat : ℕ) : ℚ) ≤ _
      rw [hcast]
      exact Int.floor_le _
    · show _ < ((⌊(height : ℚ) * aspect_ratio⌋.toNat : ℕ) : ℚ) + 1
      rw [hcast]
      exact_mod_cast Int.lt_floor_add_one ((height : ℚ) * aspect_ratio)
  · rfl

/-- C8 witness: the amended statement at height 100, ratio 1.999. -/
theorem c8_witness :
    (0 : ℚ) ≤ (100 : ℚ) * (1999 / 1000)
    ∧ ((((tracerDerive 100 (1999 / 1000) 1 1).width : ℚ) ≤ (100 : ℚ) * (1999 / 1000)
        ∧ (100 : ℚ) * (1999 / 1000) < ((tracerDerive 100 (1999 / 1000) 1 1).width : ℚ) + 1)
      ∧ (tracerDerive 100 (1999 / 1000) 1 1).view_width =
          (tracerDerive 100 (1999 / 1000) 1 1).view_height *
            (((tracerDerive 100 (1999 / 1000) 1 1).width : ℚ) / (100 : ℚ))) :=
  ⟨by norm_num, c8_amended 100 (1999 / 1000) 1 1 (by norm_num)⟩

/-- C2 counterexample: on a hit whose material's scatter returns `None`,
`ray_color` returns the debug shading `0.5 * (normal + 1)`, not black. -/
theorem c2_counterexample :
    rayColor (fun _ => 0)
        (fun _ _ => some { record := ⟨Vec3.zero, ⟨1, 0, 0⟩, (0, 0), 1, true⟩
                           material := some fun _ _ => none })
        1 ⟨Vec3.zero, ⟨0, 0, -1⟩, 0⟩ = ⟨1, 1 / 2, 1 / 2⟩
    ∧ (⟨1, 1 / 2, 1 / 2⟩ : Color) ≠ ⟨0, 0, 0⟩ := by
  constructor
  · norm_num [rayColor, Vec3.smul, Vec3.sadd, Option.bind]
  · intro h
    have := congrArg Vec3.x h
    norm_num at this

/-- C2 amended: for positive depth, on a hit with a successful scatter the
value is the attenuation times the recursive call; the debug shading
`0.5 * (normal + 1)` is returned both when the material is absent and
when its scatter returns `None` (the source merges the two cases with
`and_then`; black is returned only at depth 0). -/
theorem c2_amended (sq : ℚ → ℚ) (hitFn : Ray → Interval → Option HitResult)
    (depth : ℕ) (ray : Ray) (hr : HitResult)
    (hhit : hitFn ray ⟨.fin (1 / 1000), .pinf⟩ = some hr) :
    (∀ m sc, hr.material = some m → m ray hr.record = some sc →
        rayColor sq hitFn (depth + 1) ray =
          sc.attenuation.hmul (rayColor sq hitFn depth sc.ray))
    ∧ (∀ m, hr.material = some m → m ray hr.record = none →
        rayColor sq hitFn (depth + 1) ray =
          (hr.record.normal.smul (1 / 2)).sadd (1 / 2))
    ∧ (hr.material = none →
        rayColor sq hitFn (depth + 1) ray =
          (hr.record.normal.smul (1 / 2)).sadd (1 / 2)) := by
  refine ⟨?_, ?_, ?_⟩
  · intro m sc hm hsc
    simp only [rayColor, hhit, hm, Option.bind_eq_bind, Option.some_bind, hsc]
  · intro m hm hsc
    simp only [rayColor, hhit, hm, Option.bind_eq_bind, Option.some_bind, hsc]
  · intro hm
    simp only [rayColor, hhit, hm, Option.bind_eq_bind, Option.none_bind]

/-- C2 witness: the amended absorption case at a concrete scene. -/
theorem c2_witness :
    rayColor (fun _ => 0)
        (fun _ _ => some { record := ⟨Vec3.zero, ⟨1, 0, 0⟩, (0, 0), 1, true⟩
                           material := some fun _ _ => none })
        (0 + 1) ⟨Vec3.zero, ⟨0, 0, -1⟩, 0⟩ =
      (((⟨Vec3.zero, ⟨1, 0, 0⟩, (0, 0), 1, true⟩ : HitRecord)).normal.smul
        (1 / 2)).sadd (1 / 2) :=
  (c2_amended (fun _ => 0)
    (fun _ _ => some { record := ⟨Vec3.zero, ⟨1, 0, 0⟩, (0, 0), 1, true⟩
                       material := some fun _ _ => none })
    0 ⟨Vec3.zero, ⟨0, 0, -1⟩, 0⟩
    { record := ⟨Vec3.zero, ⟨1, 0, 0⟩, (0, 0), 1, true⟩
      material := some fun _ _ => none } rfl).2.1 (fun _ _ => none) rfl rfl

/-- C3: the code computes the hit point as `ray.at(t)` but the outward
normal from the static `self.center`; for a moving sphere at time 1 the
produced normal is `(0,1,1)` where the specified `(p - center(time))/R`
is `(0,0,1)`. -/
theorem c3_bug_eval :
    (Sphere.hit (fun _ => 1) (Sphere.new_moving ⟨0, 0, 0⟩ ⟨0, 1, 0⟩ 1 none)
        ⟨⟨0, 1, 5⟩, ⟨0, 0, -1⟩, 1⟩ ⟨.fin (1 / 1000), .pinf⟩).map
        (fun h => (h.record.t_value, h.record.point, h.record.normal)) =
      some (4, ⟨0, 1, 1⟩, ⟨0, 1, 1⟩)
    ∧ (((⟨⟨0, 1, 5⟩, ⟨0, 0, -1⟩, (1 : ℚ)⟩ : Ray).at 4).sub
        ((Sphere.new_moving ⟨0, 0, 0⟩ ⟨0, 1, 0⟩ 1 none).sphere_center 1)).sdiv 1 =
      ⟨0, 0, 1⟩
    ∧ (⟨0, 1, 1⟩ : Vec3) ≠ ⟨0, 0, 1⟩ := by
  refine ⟨?_, ?_, ?_⟩
  · norm_num [Sphere.hit, Sphere.disc, Sphere.b_half, Sphere.oc, Sphere.cur_center,
      Sphere.new_moving, Sphere.sphere_center, Sphere.root1, Sphere.root2, qdivE,
      rootSelect, surroundsF, Interval.surrounds, elt, Sphere.mkHit, HitRecord.make,
      Ray.at, Vec3.add, Vec3.sub, Vec3.smul, Vec3.sdiv, Vec3.dot, Vec3.length_squared,
      Vec3.neg]
  · norm_num [Ray.at, Sphere.new_moving, Sphere.sphere_center, Vec3.add, Vec3.sub,
      Vec3.smul, Vec3.sdiv]
  · intro h
    have := congrArg Vec3.y h
    norm_num at this

/-- Fuel `>=` length suffices for `BvhNode::split` on a non-empty list. -/
theorem splitF_isSome_of_le : ∀ {n : ℕ} {l : List Sphere}, l ≠ [] →
    l.length ≤ n → (splitF n l).isSome = true := by
  intro n
  induction n with
  | zero =>
      intro l hne hlen
      cases l with
      | nil => exact absurd rfl hne
      | cons a as => simp at hlen
  | succ m ih =>
      intro l hne hlen
      match l with
      | [] => exact absurd rfl hne
      | [a] => simp [splitF]
      | [a, b] => simp [splitF]
      | a :: b :: c :: rest =>
          have hlen3 : 3 ≤ (a :: b :: c :: rest).length := by
            simp only [List.length_cons]
            omega
          set L := (a :: b :: c :: rest).length with hL
          have hmid1 : 1 ≤ L / 2 := by omega
          have hmidL : L / 2 < L := by omega
          have htake : ((a :: b :: c :: rest).take (L / 2)).length = L / 2 := by
            rw [List.length_take]; omega
          have hdrop : ((a :: b :: c :: rest).drop (L / 2)).length = L - L / 2 := by
            rw [List.length_drop]
          have h1 : (splitF m ((a :: b :: c :: rest).take (L / 2))).isSome = true := by
            apply ih
            · intro hemp
              rw [hemp] at htake
              simp at htake
              omega
            · rw [htake]; omega
          have h2 : (splitF m ((a :: b :: c :: rest).drop (L / 2))).isSome = true := by
            apply ih
            · intro hemp
              rw [hemp] at hdrop
              simp at hdrop
              omega
            · rw [hdrop]; omega
          rw [Option.isSome_iff_exists] at h1 h2
          obtain ⟨lp, hlp⟩ := h1
          obtain ⟨rp, hrp⟩ := h2
          simp only [splitF, ← hL, hlp, hrp]
          rfl

/-- C10: `BvhNode::split` reaches a result on every non-empty list with a
recursion budget of the list length (lengths 1 and 2 are base cases and
both recursive halves are strictly shorter), while on the empty list it
calls itself on the empty list again and exhausts any budget. -/
theorem c10_split_termination :
    (∀ l : List Sphere, l ≠ [] → (splitF l.length l).isSome = true)
    ∧ ∀ fuel : ℕ, splitF fuel ([] : List Sphere) = none := by
  constructor
  · intro l hl
    exact splitF_isSome_of_le hl le_rfl
  · intro fuel
    induction fuel with
    | zero => simp [splitF]
    | succ f ih => simp [splitF, ih]

/-- C10 witness: the non-empty half at a one-sphere list. -/
theorem c10_witness :
    ([Sphere.new ⟨0, 0, 0⟩ 1 none] ≠ ([] : List Sphere))
    ∧ (splitF [Sphere.new ⟨0, 0, 0⟩ 1 none].length
        [Sphere.new ⟨0, 0, 0⟩ 1 none]).isSome = true :=
  ⟨by simp, c10_split_termination.1 _ (by simp)⟩

theorem length_squared_nonneg (v : Vec3) : 0 ≤ v.length_squared := by
  simp only [Vec3.length_squared, Vec3.dot]
  nlinarith [mul_self_nonneg v.x, mul_self_nonneg v.y, mul_self_nonneg v.z]

/-- A value that survives the open-interval test is finite. -/
theorem surroundsF_some_fin {i : Interval} {v : FD} (h : surroundsF i v = true) :
    ∃ q : ℚ, v = some (.fin q) ∧ i.surrounds (.fin q) = true := by
  match v with
  | none => simp [surroundsF] at h
  | some (.fin q) => exact ⟨q, rfl, h⟩
  | some .pinf =>
      simp only [surroundsF, Interval.surrounds] at h
      rw [elt_from_pinf] at h
      simp at h
  | some .ninf =>
      simp only [surroundsF, Interval.surrounds] at h
      rw [elt_to_ninf] at h
      simp at h

/-- With a non-negative square root, `root1 <= root2` whenever both are
non-NaN (for a zero denominator the signed infinities still compare). -/
theorem root_ord (sq : ℚ → ℚ) (hs : ∀ x, 0 ≤ x → 0 ≤ sq x)
    (s : Sphere) (ray : Ray) (hd : ¬ s.disc ray < 0) :
    ∀ x1 x2, s.root1 sq ray = some x1 → s.root2 sq ray = some x2 →
    ele x1 x2 = true := by
  intro x1 x2 h1 h2
  have hsq : 0 ≤ sq (s.disc ray) := hs _ (not_lt.mp hd)
  have hn : -s.b_half ray - sq (s.disc ray) ≤ -s.b_half ray + sq (s.disc ray) := by
    linarith
  simp only [Sphere.root1, Sphere.root2, qdivE] at h1 h2
  by_cases ha : ray.direction.length_squared ≠ 0
  · have hapos : 0 < ray.direction.length_squared :=
      lt_of_le_of_ne (length_squared_nonneg _) (Ne.symm ha)
    rw [if_pos ha] at h1 h2
    simp only [Option.some.injEq] at h1 h2
    subst h1; subst h2
    rw [ele_fin_fin]
    gcongr
  · rw [if_neg ha] at h1 h2
    rcases lt_trichotomy (0 : ℚ) (-s.b_half ray - sq (s.disc ray)) with hs1 | hs1 | hs1
    · rw [if_pos hs1] at h1
      have hs2 : 0 < -s.b_half ray + sq (s.disc ray) := lt_of_lt_of_le hs1 hn
      rw [if_pos hs2] at h2
      simp only [Option.some.injEq] at h1 h2
      subst h1; subst h2
      simp [ele, elt]
    · rw [if_neg (by rw [← hs1]; exact lt_irrefl 0), if_neg (by rw [← hs1]; exact lt_irrefl 0)] at h1
      exact absurd h1 (by simp)
    · rw [if_neg (by exact not_lt.mpr (le_of_lt hs1)), if_pos hs1] at h1
      simp only [Option.some.injEq] at h1
      subst h1
      simp [ele, elt_to_ninf]

/-- C5: when the discriminant is non-negative the root is selected by the
strict `surrounds` test, `root1` first, then `root2`, else a miss; a
negative discriminant is a miss; and the returned `t` is the smallest
root strictly inside the range. -/
theorem c5_root_selection (sq : ℚ → ℚ) (hs : ∀ x, 0 ≤ x → 0 ≤ sq x)
    (s : Sphere) (ray : Ray) (t_range : Interval) :
    (s.disc ray < 0 → Sphere.hit sq s ray t_range = none)
    ∧ (¬ s.disc ray < 0 → ∀ q1 : ℚ, s.root1 sq ray = some (.fin q1) →
        t_range.surrounds (.fin q1) = true →
        Sphere.hit sq s ray t_range = some (s.mkHit ray q1))
    ∧ (¬ s.disc ray < 0 → surroundsF t_range (s.root1 sq ray) = false →
        ∀ q2 : ℚ, s.root2 sq ray = some (.fin q2) →
        t_range.surrounds (.fin q2) = true →
        Sphere.hit sq s ray t_range = some (s.mkHit ray q2))
    ∧ (¬ s.disc ray < 0 → surroundsF t_range (s.root1 sq ray) = false →
        surroundsF t_range (s.root2 sq ray) = false →
        Sphere.hit sq s ray t_range = none)
    ∧ (∀ h, Sphere.hit sq s ray t_range = some h →
        t_range.surrounds (.fin h.record.t_value) = true
        ∧ ∀ q : ℚ,
            (s.root1 sq ray = some (.fin q) ∨ s.root2 sq ray = some (.fin q)) →
            t_range.surrounds (.fin q) = true → h.record.t_value ≤ q) := by
  refine ⟨?_, ?_, ?_, ?_, ?_⟩
  · intro hd
    simp only [Sphere.hit, if_pos hd]
  · intro hd q1 hq1 hsur
    have hsf : surroundsF t_range (some (Ext.fin q1)) = true := by
      simpa [surroundsF] using hsur
    simp only [Sphere.hit, if_neg hd, rootSelect, hq1, hsf]
  · intro hd hsf1 q2 hq2 hsur
    have hsf2 : surroundsF t_range (some (Ext.fin q2)) = true := by
      simpa [surroundsF] using hsur
    simp only [Sphere.hit, if_neg hd, rootSelect, hq2, hsf1, hsf2]
  · intro hd hsf1 hsf2
    simp only [Sphere.hit, if_neg hd, rootSelect, hsf1, hsf2]
  · intro h hh
    by_cases hd : s.disc ray < 0
    · simp only [Sphere.hit, if_pos hd] at hh
      exact absurd hh (by simp)
    · simp only [Sphere.hit, if_neg hd, rootSelect] at hh
      cases hsf1 : surroundsF t_range (s.root1 sq ray) with
      | true =>
          obtain ⟨q1, he1, hsur1⟩ := surroundsF_some_fin hsf1
          rw [hsf1, he1] at hh
          simp only [Option.some.injEq] at hh
          have ht : h.record.t_value = q1 := by rw [← hh]; rfl
          refine ⟨by rw [ht]; exact hsur1, ?_⟩
          intro q hq hsq'
          rcases hq with hq | hq
          · rw [he1] at hq
            simp only [Option.some.injEq, Ext.fin.injEq] at hq
            rw [ht, hq]
          · have := root_ord sq hs s ray hd _ _ he1 hq
            rw [ele_fin_fin] at this
            rw [ht]; exact this
      | false =>
          rw [hsf1] at hh
          cases hsf2 : surroundsF t_range (s.root2 sq ray) with
          | false => rw [hsf2] at hh; exact absurd hh (by simp)
          | true =>
              obtain ⟨q2, he2, hsur2⟩ := surroundsF_some_fin hsf2
              rw [hsf2, he2] at hh
              simp only [Option.some.injEq] at hh
              have ht : h.record.t_value = q2 := by rw [← hh]; rfl
              refine ⟨by rw [ht]; exact hsur2, ?_⟩
              intro q hq hsq'
              rcases hq with hq | hq
              · exfalso
                rw [hq] at hsf1
                simp only [surroundsF] at hsf1
                rw [hsq'] at hsf1
                simp at hsf1
              · rw [he2] at hq
                simp only [Option.some.injEq, Ext.fin.injEq] at hq
                rw [ht, hq]

/-- C5 witness: unit sphere at the origin, axial ray from distance 5; the
near root 4 is selected. -/
theorem c5_witness :
    (∀ x : ℚ, 0 ≤ x → 0 ≤ (fun x : ℚ => if x = 1 then (1 : ℚ) else 0) x)
    ∧ Sphere.hit (fun x : ℚ => if x = 1 then (1 : ℚ) else 0)
        (Sphere.new ⟨0, 0, 0⟩ 1 none) ⟨⟨0, 0, 5⟩, ⟨0, 0, -1⟩, 0⟩
        ⟨.fin (1 / 1000), .pinf⟩ =
      some ((Sphere.new ⟨0, 0, 0⟩ 1 none).mkHit ⟨⟨0, 0, 5⟩, ⟨0, 0, -1⟩, 0⟩ 4) := by
  have hsq : ∀ x : ℚ, 0 ≤ x → 0 ≤ (fun x : ℚ => if x = 1 then (1 : ℚ) else 0) x := by
    intro x hx
    by_cases h1 : x = 1 <;> simp [h1]
  refine ⟨hsq, ?_⟩
  apply (c5_root_selection (fun x : ℚ => if x = 1 then (1 : ℚ) else 0) hsq
    (Sphere.new ⟨0, 0, 0⟩ 1 none) ⟨⟨0, 0, 5⟩, ⟨0, 0, -1⟩, 0⟩
    ⟨.fin (1 / 1000), .pinf⟩).2.1
  · norm_num [Sphere.disc, Sphere.b_half, Sphere.oc, Sphere.cur_center, Sphere.new,
      Vec3.dot, Vec3.sub, Vec3.length_squared, Vec3.zero]
  · norm_num [Sphere.root1, Sphere.disc, Sphere.b_half, Sphere.oc, Sphere.cur_center,
      Sphere.new, Vec3.dot, Vec3.sub, Vec3.length_squared, Vec3.zero, qdivE]
  · norm_num [Interval.surrounds, elt]

theorem surroundsF_qdivE_zero (i : Interval) (n : ℚ) :
    surroundsF i (qdivE n 0) = false := by
  simp only [qdivE, if_neg (by simp : ¬ (0 : ℚ) ≠ 0)]
  split
  · simp [surroundsF, Interval.surrounds, elt_from_pinf]
  · split
    · simp [surroundsF, Interval.surrounds, elt_to_ninf]
    · simp [surroundsF]

/-- A zero-length direction never produces a sphere hit: both roots are
infinite or NaN and fail the open-interval test. -/
theorem sphere_hit_a_zero {sq : ℚ → ℚ} {s : Sphere} {ray : Ray}
    (ha : ray.direction.length_squared = 0) (t_range : Interval) :
    Sphere.hit sq s ray t_range = none := by
  simp only [Sphere.hit]
  split
  · rfl
  · have h1 : surroundsF t_range (s.root1 sq ray) = false := by
      simp only [Sphere.root1, ha]
      exact surroundsF_qdivE_zero _ _
    have h2 : surroundsF t_range (s.root2 sq ray) = false := by
      simp only [Sphere.root2, ha]
      exact surroundsF_qdivE_zero _ _
    simp only [rootSelect, h1, h2]

/-- Inversion for a successful sphere hit: the result is `mkHit` at a
finite root that passes the open-interval test and is one of the two
computed roots. -/
theorem sphere_hit_inv {sq : ℚ → ℚ} {s : Sphere} {ray : Ray} {t_range : Interval}
    {h : HitResult} (hh : Sphere.hit sq s ray t_range = some h) :
    ∃ q : ℚ, h = s.mkHit ray q ∧ t_range.surrounds (.fin q) = true ∧
      (s.root1 sq ray = some (.fin q) ∨ s.root2 sq ray = some (.fin q)) := by
  simp only [Sphere.hit] at hh
  split at hh
  · exact absurd hh (by simp)
  · simp only [rootSelect] at hh
    cases hsf1 : surroundsF t_range (s.root1 sq ray) with
    | true =>
        obtain ⟨q1, he1, hsur1⟩ := surroundsF_some_fin hsf1
        rw [hsf1, he1] at hh
        simp only [Option.some.injEq] at hh
        exact ⟨q1, hh.symm, hsur1, Or.inl he1⟩
    | false =>
        rw [hsf1] at hh
        cases hsf2 : surroundsF t_range (s.root2 sq ray) with
        | false => rw [hsf2] at hh; exact absurd hh (by simp)
        | true =>
            obtain ⟨q2, he2, hsur2⟩ := surroundsF_some_fin hsf2
            rw [hsf2, he2] at hh
            simp only [Option.some.injEq] at hh
            exact ⟨q2, hh.symm, hsur2, Or.inr he2⟩

theorem mkHit_t (s : Sphere) (ray : Ray) (q : ℚ) :
    (s.mkHit ray q).record.t_value = q := rfl

/-- Narrowing the top of the query interval filters the sphere hit by the
new bound and changes nothing else (interval coherence of
`Sphere::hit`). -/
theorem sphere_hit_narrow (sq : ℚ → ℚ) (hs : ∀ x, 0 ≤ x → 0 ≤ sq x)
    (s : Sphere) (ray : Ray) (lo : Ext) {tcS tcB : Ext}
    (hle : ele tcS tcB = true) :
    Sphere.hit sq s ray ⟨lo, tcS⟩ =
      match Sphere.hit sq s ray ⟨lo, tcB⟩ with
      | some h => if elt (.fin h.record.t_value) tcS = true then some h else none
      | none => none := by
  by_cases hd : s.disc ray < 0
  · simp only [Sphere.hit, if_pos hd]
  · by_cases ha : ray.direction.length_squared = 0
    · rw [sphere_hit_a_zero ha, sphere_hit_a_zero ha]
    · have hr1 : s.root1 sq ray =
          some (.fin ((-s.b_half ray - sq (s.disc ray)) / ray.direction.length_squared)) := by
        simp [Sphere.root1, qdivE, ha]
      have hr2 : s.root2 sq ray =
          some (.fin ((-s.b_half ray + sq (s.disc ray)) / ray.direction.length_squared)) := by
        simp [Sphere.root2, qdivE, ha]
      set r1 := (-s.b_half ray - sq (s.disc ray)) / ray.direction.length_squared with hr1d
      set r2 := (-s.b_half ray + sq (s.disc ray)) / ray.direction.length_squared with hr2d
      have h12 : ele (.fin r1) (.fin r2) = true := root_ord sq hs s ray hd _ _ hr1 hr2
      have hsurS : ∀ q : ℚ, Interval.surrounds ⟨lo, tcS⟩ (.fin q) =
          (elt lo (.fin q) && elt (.fin q) tcS) := fun q => rfl
      have hsurB : ∀ q : ℚ, Interval.surrounds ⟨lo, tcB⟩ (.fin q) =
          (elt lo (.fin q) && elt (.fin q) tcB) := fun q => rfl
      simp only [Sphere.hit, if_neg hd, rootSelect, hr1, hr2, surroundsF, hsurS, hsurB]
      by_cases hA1 : elt lo (.fin r1) = true
      · by_cases hB1 : elt (.fin r1) tcB = true
        · -- the wide interval selects r1
          simp only [hA1, hB1, Bool.and_true, Bool.true_and]
          by_cases hS1 : elt (.fin r1) tcS = true
          · simp [hS1, mkHit_t]
          · -- r1 fails the narrow top; r2 fails it too since r1 <= r2
            have hS2 : elt (.fin r2) tcS = false := by
              by_contra hc
              simp only [Bool.not_eq_false] at hc
              exact hS1 (elt_of_ele_of_elt h12 hc)
            simp [hS1, hS2, mkHit_t, Bool.false_eq_true]
        · -- r1 inside below but above the wide top: nothing is selected
          have hS1 : elt (.fin r1) tcS = false := by
            by_contra hc
            simp only [Bool.not_eq_false] at hc
            exact (by simp [hB1] : ¬ elt (.fin r1) tcB = true)
              (elt_of_elt_of_ele hc hle)
          have hB2 : elt (.fin r2) tcB = false := by
            by_contra hc
            simp only [Bool.not_eq_false] at hc
            exact (by simp [hB1] : ¬ elt (.fin r1) tcB = true)
              (elt_of_ele_of_elt h12 hc)
          have hS2 : elt (.fin r2) tcS = false := by
            by_contra hc
            simp only [Bool.not_eq_false] at hc
            exact (by simp [hB2] : ¬ elt (.fin r2) tcB = true)
              (elt_of_elt_of_ele hc hle)
          simp [hA1, hB1, hS1, hB2, hS2]
      · -- r1 below the interval on both sides: r2 decides
        simp only [hA1, Bool.false_and, Bool.and_false]
        by_cases hA2 : elt lo (.fin r2) = true
        · by_cases hB2 : elt (.fin r2) tcB = true
          · simp only [hA2, hB2, Bool.and_true, Bool.true_and]
            by_cases hS2 : elt (.fin r2) tcS = true
            · simp [hS2, mkHit_t]
            · simp [hS2, mkHit_t, Bool.false_eq_true]
          · have hS2 : elt (.fin r2) tcS = false := by
              by_contra hc
              simp only [Bool.not_eq_false] at hc
              exact (by simp [hB2] : ¬ elt (.fin r2) tcB = true)
                (elt_of_elt_of_ele hc hle)
            simp [hA2, hB2, hS2]
        · simp [hA2]

theorem updMin_keeps {mn : Ext} {t : FD} {ts : ℚ} (hmn : elt mn (.fin ts) = true)
    (ht : ∀ x, t = some x → elt x (.fin ts) = true) :
    elt (updMin mn t) (.fin ts) = true := by
  cases t with
  | none => exact hmn
  | some x =>
      simp only [updMin]
      split
      · exact ht x rfl
      · exact hmn

theorem updMax_keeps {mx : Ext} {t : FD} {ts : ℚ} (hmx : elt (.fin ts) mx = true)
    (ht : ∀ x, t = some x → elt (.fin ts) x = true) :
    elt (.fin ts) (updMax mx t) = true := by
  cases t with
  | none => exact hmx
  | some x =>
      simp only [updMax]
      split
      · exact ht x rfl
      · exact hmx

theorem updMin_ninf (mn : Ext) : updMin mn (some .ninf) = mn := by
  simp [updMin, elt_to_ninf]

theorem updMax_pinf (mx : Ext) : updMax mx (some .pinf) = mx := by
  simp [updMax, elt_from_pinf]

theorem updMin_pinf (mn : Ext) : updMin mn (some .pinf) = .pinf := by
  cases mn <;> simp [updMin, elt]

theorem updMax_ninf (mx : Ext) : updMax mx (some .ninf) = .ninf := by
  cases mx <;> simp [updMax, elt]

theorem ediv_lt_of_lt_pos {lo : Ext} {o d t : ℚ} (hd : 0 < d)
    (h : elt lo (.fin (o + d * t)) = true) :
    ∃ x, ediv (esub lo o) d = some x ∧ elt x (.fin t) = true := by
  cases lo with
  | ninf =>
      refine ⟨.ninf, ?_, by simp [elt]⟩
      simp [esub, ediv, not_lt.mpr (le_of_lt hd)]
  | pinf => rw [elt_from_pinf] at h; exact absurd h (by simp)
  | fin l =>
      rw [elt_fin_fin] at h
      refine ⟨.fin ((l - o) / d), by simp [esub, ediv, qdivE, ne_of_gt hd], ?_⟩
      rw [elt_fin_fin, div_lt_iff hd]
      have hc := mul_comm d t
      linarith

theorem ediv_gt_of_gt_pos {hi : Ext} {o d t : ℚ} (hd : 0 < d)
    (h : elt (.fin (o + d * t)) hi = true) :
    ∃ y, ediv (esub hi o) d = some y ∧ elt (.fin t) y = true := by
  cases hi with
  | pinf =>
      refine ⟨.pinf, ?_, by simp [elt]⟩
      simp [esub, ediv, not_lt.mpr (le_of_lt hd)]
  | ninf => rw [elt_to_ninf] at h; exact absurd h (by simp)
  | fin u =>
      rw [elt_fin_fin] at h
      refine ⟨.fin ((u - o) / d), by simp [esub, ediv, qdivE, ne_of_gt hd], ?_⟩
      rw [elt_fin_fin, lt_div_iff hd]
      have hc := mul_comm d t
      linarith

theorem ediv_gt_of_lt_neg {lo : Ext} {o d t : ℚ} (hd : d < 0)
    (h : elt lo (.fin (o + d * t)) = true) :
    ∃ x, ediv (esub lo o) d = some x ∧ elt (.fin t) x = true := by
  cases lo with
  | ninf =>
      refine ⟨.pinf, ?_, by simp [elt]⟩
      simp [esub, ediv, hd]
  | pinf => rw [elt_from_pinf] at h; exact absurd h (by simp)
  | fin l =>
      rw [elt_fin_fin] at h
      refine ⟨.fin ((l - o) / d), by simp [esub, ediv, qdivE, ne_of_lt hd], ?_⟩
      rw [elt_fin_fin, lt_div_iff_of_neg hd]
      have hc := mul_comm d t
      linarith

theorem ediv_lt_of_gt_neg {hi : Ext} {o d t : ℚ} (hd : d < 0)
    (h : elt (.fin (o + d * t)) hi = true) :
    ∃ y, ediv (esub hi o) d = some y ∧ elt y (.fin t) = true := by
  cases hi with
  | pinf =>
      refine ⟨.ninf, ?_, by simp [elt]⟩
      simp [esub, ediv, hd]
  | ninf => rw [elt_to_ninf] at h; exact absurd h (by simp)
  | fin u =>
      rw [elt_fin_fin] at h
      refine ⟨.fin ((u - o) / d), by simp [esub, ediv, qdivE, ne_of_lt hd], ?_⟩
      rw [elt_fin_fin, div_lt_iff_of_neg hd]
      have hc := mul_comm d t
      linarith

theorem ediv_zero_inside_lo {lo : Ext} {o : ℚ} (h : elt lo (.fin o) = true) :
    ediv (esub lo o) 0 = some .ninf := by
  cases lo with
  | ninf => simp [esub, ediv]
  | pinf => rw [elt_from_pinf] at h; exact absurd h (by simp)
  | fin l =>
      rw [elt_fin_fin] at h
      simp only [esub, ediv, qdivE]
      rw [if_neg (by simp), if_neg (by linarith), if_pos (by linarith)]

theorem ediv_zero_inside_hi {hi : Ext} {o : ℚ} (h : elt (.fin o) hi = true) :
    ediv (esub hi o) 0 = some .pinf := by
  cases hi with
  | pinf => simp [esub, ediv]
  | ninf => rw [elt_to_ninf] at h; exact absurd h (by simp)
  | fin u =>
      rw [elt_fin_fin] at h
      simp only [esub, ediv, qdivE]
      rw [if_neg (by simp), if_pos (by linarith)]

/-- One slab-test axis keeps any parameter `tstar` whose point is strictly
inside the slab strictly inside the running interval. -/
theorem slabStep_keeps {lo hi : Ext} {o d tstar : ℚ} {mn mx : Ext}
    (hin1 : elt lo (.fin (o + d * tstar)) = true)
    (hin2 : elt (.fin (o + d * tstar)) hi = true)
    (hmn : elt mn (.fin tstar) = true) (hmx : elt (.fin tstar) mx = true) :
    elt (slabStep lo hi o d mn mx).1 (.fin tstar) = true
    ∧ elt (.fin tstar) (slabStep lo hi o d mn mx).2 = true := by
  rcases lt_trichotomy d 0 with hd | hd | hd
  · obtain ⟨x0, hx0, hx0t⟩ := ediv_gt_of_lt_neg hd hin1
    obtain ⟨y1, hy1, hy1t⟩ := ediv_lt_of_gt_neg hd hin2
    have hflt : fdlt (ediv (esub lo o) d) (ediv (esub hi o) d) = false := by
      rw [hx0, hy1]
      simp only [fdlt]
      by_contra hcon
      simp only [Bool.not_eq_false] at hcon
      have := elt_trans (elt_trans hx0t hcon) hy1t
      rw [elt_irrefl] at this
      exact Bool.false_ne_true this
    simp only [slabStep, hflt, if_false, Bool.false_eq_true]
    constructor
    · refine updMin_keeps hmn ?_
      intro x hx
      rw [hy1] at hx
      injection hx with hx
      rw [← hx]
      exact hy1t
    · refine updMax_keeps hmx ?_
      intro x hx
      rw [hx0] at hx
      injection hx with hx
      rw [← hx]
      exact hx0t
  · subst hd
    simp only [zero_mul, add_zero] at hin1 hin2
    have h0 := ediv_zero_inside_lo hin1
    have h1 := ediv_zero_inside_hi hin2
    simp only [slabStep, h0, h1, fdlt, elt, if_true, updMin_ninf, updMax_pinf]
    exact ⟨hmn, hmx⟩
  · obtain ⟨x0, hx0, hx0t⟩ := ediv_lt_of_lt_pos hd hin1
    obtain ⟨y1, hy1, hy1t⟩ := ediv_gt_of_gt_pos hd hin2
    have hflt : fdlt (ediv (esub lo o) d) (ediv (esub hi o) d) = true := by
      rw [hx0, hy1]
      simp only [fdlt]
      exact elt_trans hx0t hy1t
    simp only [slabStep, hflt, if_true]
    constructor
    · refine updMin_keeps hmn ?_
      intro x hx
      rw [hx0] at hx
      injection hx with hx
      rw [← hx]
      exact hx0t
    · refine updMax_keeps hmx ?_
      intro x hx
      rw [hy1] at hx
      injection hx with hx
      rw [← hx]
      exact hy1t

/-- The slab loop accepts whenever some parameter `tstar` is strictly
inside the query interval and its point is strictly inside every slab. -/
theorem slabFold_inside (tstar : ℚ) :
    ∀ (axes : List (Interval × ℚ × ℚ)) (mn mx : Ext),
    (∀ a ∈ axes, elt a.1.min (.fin (a.2.1 + a.2.2 * tstar)) = true ∧
        elt (.fin (a.2.1 + a.2.2 * tstar)) a.1.max = true) →
    elt mn (.fin tstar) = true → elt (.fin tstar) mx = true →
    slabFold axes mn mx = true := by
  intro axes
  induction axes with
  | nil => intro mn mx _ _ _; rfl
  | cons p rest ih =>
      intro mn mx hall hmn hmx
      obtain ⟨iv, o, d⟩ := p
      have hp := hall _ (List.mem_cons_self _ _)
      have hk := slabStep_keeps hp.1 hp.2 hmn hmx
      have hcond : ele (slabStep iv.min iv.max o d mn mx).2
          (slabStep iv.min iv.max o d mn mx).1 = false := by
        simp only [ele, Bool.not_eq_false']
        exact elt_trans hk.1 hk.2
      simp only [slabFold, hcond, Bool.false_eq_true, if_false]
      exact ih _ _ (fun a ha => hall a (List.mem_cons_of_mem _ ha)) hk.1 hk.2

/-- `AABB::hit` succeeds when some `tstar` strictly inside the query
interval has its ray point strictly inside the box. -/
theorem AABB.hit_of_inside (b : AABB) (r : Ray) (i : Interval) (tstar : ℚ)
    (hp : insideBox (r.at tstar) b = true)
    (hlo : elt i.min (.fin tstar) = true) (hhi : elt (.fin tstar) i.max = true) :
    AABB.hit b r i = true := by
  simp only [insideBox, Bool.and_eq_true, Interval.surrounds, Ray.at, Vec3.add,
    Vec3.smul] at hp
  apply slabFold_inside tstar _ i.min i.max _ hlo hhi
  intro a ha
  simp only [List.mem_cons, List.not_mem_nil, or_false] at ha
  rcases ha with rfl | rfl | rfl
  · exact ⟨hp.1.1.1, hp.1.1.2⟩
  · exact ⟨hp.1.2.1, hp.1.2.2⟩
  · exact ⟨hp.2.1, hp.2.2⟩

/-- A zero-direction axis whose origin coordinate lies outside a
non-empty slab forces the early-out rejection. -/
theorem slabStep_kill {iv : Interval} {o : ℚ} {mn mx : Ext}
    (hout : elt (.fin o) iv.min = true ∨ elt iv.max (.fin o) = true)
    (hne : ele iv.min iv.max = true) :
    ele (slabStep iv.min iv.max o 0 mn mx).2 (slabStep iv.min iv.max o 0 mn mx).1 =
      true := by
  rcases hout with hout | hout
  · have ht0 : ediv (esub iv.min o) 0 = some .pinf := by
      cases hmin : iv.min with
      | ninf => rw [hmin] at hout; rw [elt_to_ninf] at hout; exact absurd hout (by simp)
      | pinf => simp [esub, ediv]
      | fin m =>
          rw [hmin, elt_fin_fin] at hout
          simp only [esub, ediv, qdivE]
          rw [if_neg (by simp), if_pos (by linarith)]
    have ht1 : ediv (esub iv.max o) 0 = some .pinf := by
      cases hmax : iv.max with
      | ninf =>
          exfalso
          rw [ele_iff_not_elt, hmax] at hne
          cases hmin : iv.min with
          | ninf => rw [hmin] at hout; rw [elt_to_ninf] at hout; exact absurd hout (by simp)
          | pinf => rw [hmin] at hne; simp [elt] at hne
          | fin m => rw [hmin] at hne; simp [elt] at hne
      | pinf => simp [esub, ediv]
      | fin u =>
          rw [ele_iff_not_elt] at hne
          have hu : o < u := by
            cases hmin : iv.min with
            | ninf => rw [hmin] at hout; rw [elt_to_ninf] at hout; simp at hout
            | pinf => rw [hmin, hmax] at hne; simp [elt] at hne
            | fin m =>
                rw [hmin, elt_fin_fin] at hout
                rw [hmax, hmin] at hne
                simp only [elt, decide_eq_false_iff_not, not_lt] at hne
                linarith
          simp only [hmax, esub, ediv, qdivE]
          rw [if_neg (by simp), if_pos (by linarith)]
    simp only [slabStep, ht0, ht1, fdlt, elt_irrefl, Bool.false_eq_true, if_false,
      updMin_pinf]
    simp [ele, elt_from_pinf]
  · have ht1 : ediv (esub iv.max o) 0 = some .ninf := by
      cases hmax : iv.max with
      | pinf => rw [hmax] at hout; rw [elt_from_pinf] at hout; exact absurd hout (by simp)
      | ninf => simp [esub, ediv]
      | fin u =>
          rw [hmax, elt_fin_fin] at hout
          simp only [esub, ediv, qdivE]
          rw [if_neg (by simp), if_neg (by linarith), if_pos (by linarith)]
    have ht0 : ediv (esub iv.min o) 0 = some .ninf := by
      cases hmin : iv.min with
      | pinf =>
          exfalso
          rw [ele_iff_not_elt, hmin] at hne
          cases hmax : iv.max with
          | pinf => rw [hmax] at hout; rw [elt_from_pinf] at hout; simp at hout
          | ninf => rw [hmax] at hne; simp [elt] at hne
          | fin u => rw [hmax] at hne; simp [elt] at hne
      | ninf => simp [esub, ediv]
      | fin m =>
          rw [ele_iff_not_elt] at hne
          have hm : m < o := by
            cases hmax : iv.max with
            | pinf => rw [hmax] at hout; rw [elt_from_pinf] at hout; simp at hout
            | ninf => rw [hmin, hmax] at hne; simp [elt] at hne
            | fin u =>
                rw [hmax, elt_fin_fin] at hout
                rw [hmax, hmin] at hne
                simp only [elt, decide_eq_false_iff_not, not_lt] at hne
                linarith
          simp only [hmin, esub, ediv, qdivE]
          rw [if_neg (by simp), if_neg (by linarith), if_pos (by linarith)]
    simp only [slabStep, ht0, ht1, fdlt, elt_irrefl, Bool.false_eq_true, if_false,
      updMin_ninf, updMax_ninf]
    simp [ele, elt_to_ninf]

/-- The slab loop rejects as soon as it reaches a killing axis. -/
theorem slabFold_kill {iv : Interval} {o : ℚ}
    (hout : elt (.fin o) iv.min = true ∨ elt iv.max (.fin o) = true)
    (hne : ele iv.min iv.max = true) :
    ∀ (l1 l2 : List (Interval × ℚ × ℚ)) (mn mx : Ext),
    slabFold (l1 ++ (iv, o, 0) :: l2) mn mx = false := by
  intro l1
  induction l1 with
  | nil =>
      intro l2 mn mx
      simp only [List.nil_append, slabFold, slabStep_kill hout hne, if_true]
  | cons p rest ih =>
      intro l2 mn mx
      obtain ⟨jv, o2, d2⟩ := p
      simp only [List.cons_append, slabFold]
      split
      · rfl
      · exact ih l2 _ _

/-- C6 counterexample: a box whose x axis is `Interval::empty` defeats
the parallel-miss property: the ray has `direction.x = 0` and its origin
is outside (below) the empty x slab, yet the slab test reports a hit,
because both crossing parameters for an empty slab are non-finite and
never narrow the running interval. -/
theorem c6_counterexample :
    (⟨Interval.emptyI, ⟨.fin (-1), .fin 1⟩, ⟨.fin (-1), .fin 1⟩⟩ : AABB).hit
        ⟨⟨0, 0, 0⟩, ⟨0, 0, 1⟩, 0⟩ Interval.universe = true
    ∧ (⟨0, 0, 1⟩ : Vec3).nth 0 = 0
    ∧ elt (.fin ((⟨0, 0, 0⟩ : Vec3).nth 0))
        (⟨Interval.emptyI, ⟨.fin (-1), .fin 1⟩, ⟨.fin (-1), .fin 1⟩⟩ : AABB).ix.min =
      true := by
  refine ⟨?_, rfl, by simp [Interval.emptyI, elt]⟩
  norm_num [AABB.hit, slabFold, slabStep, ediv, esub, qdivE, updMin, updMax, elt,
    ele, fdlt, Interval.emptyI, Interval.universe]

/-- C6 amended: with the universe t-interval, a ray with nonzero
direction starting strictly inside the box hits it (zero direction
components yield infinite slab parameters that never narrow); a ray
parallel to a slab whose origin coordinate is outside that slab misses,
provided that slab is non-empty (`min <= max`); the empty slab of
`AABB::empty` is transparent instead. -/
theorem c6_slab_test (b : AABB) (r : Ray) :
    (r.direction ≠ Vec3.zero → insideBox r.origin b = true →
      AABB.hit b r Interval.universe = true)
    ∧ (∀ ax : Fin 3, r.direction.nth ax = 0 →
        (elt (.fin (r.origin.nth ax)) (b.nth ax).min = true ∨
         elt (b.nth ax).max (.fin (r.origin.nth ax)) = true) →
        ele (b.nth ax).min (b.nth ax).max = true →
        AABB.hit b r Interval.universe = false) := by
  constructor
  · intro _ hin
    have hat : r.at 0 = r.origin := by
      simp [Ray.at, Vec3.add, Vec3.smul]
    exact AABB.hit_of_inside b r Interval.universe 0 (by rw [hat]; exact hin)
      (by simp [Interval.universe, elt]) (by simp [Interval.universe, elt])
  · intro ax hd hout hne
    fin_cases ax
    · simp only [Vec3.nth] at hd
      simp only [AABB.nth] at hout hne
      show slabFold ([] ++ (b.ix, r.origin.x, r.direction.x) ::
        [(b.iy, r.origin.y, r.direction.y), (b.iz, r.origin.z, r.direction.z)])
        Interval.universe.min Interval.universe.max = false
      rw [hd]
      exact slabFold_kill hout hne _ _ _ _
    · simp only [Vec3.nth] at hd
      simp only [AABB.nth] at hout hne
      show slabFold ([(b.ix, r.origin.x, r.direction.x)] ++
        (b.iy, r.origin.y, r.direction.y) ::
        [(b.iz, r.origin.z, r.direction.z)])
        Interval.universe.min Interval.universe.max = false
      rw [hd]
      exact slabFold_kill hout hne _ _ _ _
    · simp only [Vec3.nth] at hd
      simp only [AABB.nth] at hout hne
      show slabFold ([(b.ix, r.origin.x, r.direction.x),
        (b.iy, r.origin.y, r.direction.y)] ++
        (b.iz, r.origin.z, r.direction.z) :: [])
        Interval.universe.min Interval.universe.max = false
      rw [hd]
      exact slabFold_kill hout hne _ _ _ _

/-- C6 witness: the unit box; a ray from strictly inside hits, an outside
axis-parallel ray misses. -/
theorem c6_witness :
    (⟨⟨.fin (-1), .fin 1⟩, ⟨.fin (-1), .fin 1⟩, ⟨.fin (-1), .fin 1⟩⟩ : AABB).hit
        ⟨⟨0, 0, 0⟩, ⟨0, 1, 0⟩, 0⟩ Interval.universe = true
    ∧ (⟨⟨.fin (-1), .fin 1⟩, ⟨.fin (-1), .fin 1⟩, ⟨.fin (-1), .fin 1⟩⟩ : AABB).hit
        ⟨⟨5, 0, 0⟩, ⟨0, 0, 1⟩, 0⟩ Interval.universe = false :=
  ⟨(c6_slab_test ⟨⟨.fin (-1), .fin 1⟩, ⟨.fin (-1), .fin 1⟩, ⟨.fin (-1), .fin 1⟩⟩
      ⟨⟨0, 0, 0⟩, ⟨0, 1, 0⟩, 0⟩).1
      (by intro h; exact absurd (congrArg Vec3.y h) (by norm_num [Vec3.zero]))
      (by norm_num [insideBox, Interval.surrounds, elt]),
   (c6_slab_test ⟨⟨.fin (-1), .fin 1⟩, ⟨.fin (-1), .fin 1⟩, ⟨.fin (-1), .fin 1⟩⟩
      ⟨⟨5, 0, 0⟩, ⟨0, 0, 1⟩, 0⟩).2 0 rfl
      (by right; norm_num [AABB.nth, Vec3.nth, elt])
      (by norm_num [AABB.nth, ele, elt])⟩

theorem optMin_perm {l l' : List ℚ} (h : l.Perm l') : optMin l = optMin l' := by
  cases hm : optMin l with
  | none =>
      have : l = [] := optMin_eq_none_iff.mp hm
      subst this
      have : l' = [] := h.nil_eq.symm
      simp [this, optMin]
  | some x =>
      obtain ⟨hmem, hmin⟩ := optMin_mem hm
      exact (optMin_of_mem (h.mem_iff.mp hmem)
        fun y hy => hmin y (h.mem_iff.mpr hy)).symm

/-- Narrowing the interval top filters the member hit list. -/
theorem memberTs_narrow (sq : ℚ → ℚ) (hs : ∀ x, 0 ≤ x → 0 ≤ sq x)
    (ray : Ray) (lo : Ext) {tcS tcB : Ext} (hle : ele tcS tcB = true) :
    ∀ objects : List Sphere,
    memberTs sq objects ray ⟨lo, tcS⟩ =
      (memberTs sq objects ray ⟨lo, tcB⟩).filter fun t => elt (.fin t) tcS := by
  intro objects
  induction objects with
  | nil => rfl
  | cons o rest ih =>
      simp only [memberTs, hitT] at ih ⊢
      rw [List.filterMap_cons, List.filterMap_cons]
      rw [sphere_hit_narrow sq hs o ray lo hle]
      cases hh : Sphere.hit sq o ray ⟨lo, tcB⟩ with
      | none =>
          simpa using ih
      | some h =>
          by_cases hf : elt (.fin h.record.t_value) tcS = true
          · simp only [hf, if_true, Option.map_some, List.filter_cons]
            rw [ih]
            simp [hf]
          · simp only [hf, Bool.false_eq_true, if_false, Option.map_some,
              List.filter_cons]
            rw [ih]
            simp [hf]

theorem optMin_filter_lt (x : ℚ) (M : List ℚ) :
    (match optMin (M.filter fun t => elt (.fin t) (.fin x)) with
     | some m => some m
     | none => some x) = optMin (x :: M) := by
  cases hf : optMin (M.filter fun t => elt (.fin t) (.fin x)) with
  | none =>
      have hemp := optMin_eq_none_iff.mp hf
      have hall : ∀ t ∈ M, x ≤ t := by
        intro t ht
        have := List.filter_eq_nil_iff.mp hemp t ht
        simp only [elt_fin_fin, decide_eq_true_eq] at this
        exact le_of_not_lt (by simpa using this)
      exact (optMin_of_mem (List.mem_cons_self x M) (by
        intro y hy
        rcases List.mem_cons.mp hy with hyx | hy
        · exact le_of_eq hyx.symm
        · exact hall y hy)).symm
  | some m =>
      obtain ⟨hmem, hmin⟩ := optMin_mem hf
      have hmM := List.mem_of_mem_filter hmem
      have hmx : m < x := by
        have := List.of_mem_filter hmem
        simpa [elt_fin_fin] using this
      refine (optMin_of_mem (List.mem_cons_of_mem _ hmM) ?_).symm
      intro y hy
      rcases List.mem_cons.mp hy with hyx | hy
      · exact (le_of_lt hmx).trans_eq hyx.symm
      · by_cases hyx : y < x
        · exact hmin y (List.mem_filter.mpr ⟨hy, by simpa [elt_fin_fin]⟩)
        · exact le_trans (le_of_lt hmx) (le_of_not_lt hyx)

/-- The scan loop of `HittableList::hit` computes the minimum member hit,
with the current-best `t` mirrored in the shrinking interval top. -/
theorem listHitAux_min (sq : ℚ → ℚ) (hs : ∀ x, 0 ≤ x → 0 ≤ sq x)
    (ray : Ray) (lo : Ext) :
    ∀ (objects : List Sphere) (tc : Ext) (cur : Option HitResult),
    (∀ h, cur = some h → tc = .fin h.record.t_value) →
    hitT (listHitAux sq ray lo objects tc cur) =
      match optMin (memberTs sq objects ray ⟨lo, tc⟩) with
      | some m => some m
      | none => hitT cur := by
  intro objects
  induction objects with
  | nil =>
      intro tc cur _
      simp [listHitAux, memberTs, optMin]
  | cons o rest ih =>
      intro tc cur hinv
      simp only [listHitAux]
      cases hh : Sphere.hit sq o ray ⟨lo, tc⟩ with
      | none =>
          rw [ih tc cur hinv]
          simp [memberTs, List.filterMap_cons, hh, hitT]
      | some h =>
          obtain ⟨q, hq, hqs, -⟩ := sphere_hit_inv hh
          subst hq
          have htle : ele (.fin q) tc = true := by
            simp only [Interval.surrounds, Bool.and_eq_true] at hqs
            exact ele_of_elt hqs.2
          rw [ih (.fin ((o.mkHit ray q).record.t_value)) (some (o.mkHit ray q))
            (by intro h' hh'; injection hh' with hh'; rw [hh'])]
          simp only [mkHit_t, hitT, Option.map_some']
          rw [memberTs_narrow sq hs ray lo htle rest]
          rw [optMin_filter_lt q (memberTs sq rest ray ⟨lo, tc⟩)]
          simp only [memberTs, List.filterMap_cons, hh, hitT, Option.map_some', mkHit_t]
          cases hq2 : optMin (q :: List.filterMap
              (fun s => Option.map (fun h => h.record.t_value)
                (Sphere.hit sq s ray ⟨lo, tc⟩)) rest) with
          | none =>
              exact absurd (optMin_eq_none_iff.mp hq2) (by simp)
          | some m => rfl

/-- `HittableList::hit` returns exactly the minimum member hit `t`. -/
theorem listHit_minT (sq : ℚ → ℚ) (hs : ∀ x, 0 ≤ x → 0 ≤ sq x)
    (objects : List Sphere) (ray : Ray) (t_range : Interval) :
    hitT (listHit sq objects ray t_range) =
      optMin (memberTs sq objects ray t_range) := by
  have := listHitAux_min sq hs ray t_range.min objects t_range.max none (by simp)
  simp only [listHit]
  rw [this]
  have hi : (⟨t_range.min, t_range.max⟩ : Interval) = t_range := rfl
  rw [hi]
  cases optMin (memberTs sq objects ray t_range) <;> simp [hitT]

/-- C4: the scan returns the minimum-`t` member hit for the full query
interval, misses exactly when no member hits, and the returned `t` is
invariant under permutation of the members. -/
theorem c4_list_scan (sq : ℚ → ℚ) (hs : ∀ x, 0 ≤ x → 0 ≤ sq x)
    (objects : List Sphere) (ray : Ray) (t_range : Interval) :
    (∀ h, listHit sq objects ray t_range = some h →
        h.record.t_value ∈ memberTs sq objects ray t_range
        ∧ ∀ t ∈ memberTs sq objects ray t_range, h.record.t_value ≤ t)
    ∧ (listHit sq objects ray t_range = none ↔
        memberTs sq objects ray t_range = [])
    ∧ ∀ objects' : List Sphere, objects.Perm objects' →
        hitT (listHit sq objects' ray t_range) =
          hitT (listHit sq objects ray t_range) := by
  refine ⟨?_, ?_, ?_⟩
  · intro h hh
    have hmt := listHit_minT sq hs objects ray t_range
    rw [hh] at hmt
    simp only [hitT, Option.map_some] at hmt
    exact optMin_mem hmt.symm
  · constructor
    · intro hn
      have hmt := listHit_minT sq hs objects ray t_range
      rw [hn] at hmt
      simp only [hitT, Option.map_none] at hmt
      exact optMin_eq_none_iff.mp hmt.symm
    · intro he
      have hmt := listHit_minT sq hs objects ray t_range
      rw [he] at hmt
      simp only [optMin] at hmt
      cases hl : listHit sq objects ray t_range with
      | none => rfl
      | some h => rw [hl] at hmt; simp [hitT] at hmt
  · intro objects' hperm
    rw [listHit_minT sq hs objects ray t_range,
      listHit_minT sq hs objects' ray t_range]
    exact optMin_perm (hperm.filterMap _).symm

/-- C4 witness: two spheres on the z axis; the scan returns the nearer
hit at t = 2 whichever way the member hits [4, 2] are listed. -/
theorem c4_witness :
    listHit (fun x : ℚ => if x = 1 then (1 : ℚ) else 0)
        [Sphere.new ⟨0, 0, 0⟩ 1 none, Sphere.new ⟨0, 0, 2⟩ 1 none]
        ⟨⟨0, 0, 5⟩, ⟨0, 0, -1⟩, 0⟩ ⟨.fin (1 / 1000), .pinf⟩ =
      some ((Sphere.new ⟨0, 0, 2⟩ 1 none).mkHit ⟨⟨0, 0, 5⟩, ⟨0, 0, -1⟩, 0⟩ 2)
    ∧ (((Sphere.new ⟨0, 0, 2⟩ 1 none).mkHit
          ⟨⟨0, 0, 5⟩, ⟨0, 0, -1⟩, 0⟩ 2).record.t_value ∈
        memberTs (fun x : ℚ => if x = 1 then (1 : ℚ) else 0)
          [Sphere.new ⟨0, 0, 0⟩ 1 none, Sphere.new ⟨0, 0, 2⟩ 1 none]
          ⟨⟨0, 0, 5⟩, ⟨0, 0, -1⟩, 0⟩ ⟨.fin (1 / 1000), .pinf⟩
      ∧ ∀ t ∈ memberTs (fun x : ℚ => if x = 1 then (1 : ℚ) else 0)
          [Sphere.new ⟨0, 0, 0⟩ 1 none, Sphere.new ⟨0, 0, 2⟩ 1 none]
          ⟨⟨0, 0, 5⟩, ⟨0, 0, -1⟩, 0⟩ ⟨.fin (1 / 1000), .pinf⟩,
        ((Sphere.new ⟨0, 0, 2⟩ 1 none).mkHit
          ⟨⟨0, 0, 5⟩, ⟨0, 0, -1⟩, 0⟩ 2).record.t_value ≤ t) := by
  have hsq : ∀ x : ℚ, 0 ≤ x → 0 ≤ (fun x : ℚ => if x = 1 then (1 : ℚ) else 0) x := by
    intro x hx
    by_cases h1 : x = 1 <;> simp [h1]
  have heval : listHit (fun x : ℚ => if x = 1 then (1 : ℚ) else 0)
      [Sphere.new ⟨0, 0, 0⟩ 1 none, Sphere.new ⟨0, 0, 2⟩ 1 none]
      ⟨⟨0, 0, 5⟩, ⟨0, 0, -1⟩, 0⟩ ⟨.fin (1 / 1000), .pinf⟩ =
      some ((Sphere.new ⟨0, 0, 2⟩ 1 none).mkHit ⟨⟨0, 0, 5⟩, ⟨0, 0, -1⟩, 0⟩ 2) := by
    norm_num [listHit, listHitAux, Sphere.hit, Sphere.disc, Sphere.b_half, Sphere.oc,
      Sphere.cur_center, Sphere.new, Sphere.sphere_center, Sphere.root1, Sphere.root2,
      qdivE, rootSelect, surroundsF, Interval.surrounds, elt, Sphere.mkHit,
      HitRecord.make, Ray.at, Vec3.add, Vec3.sub, Vec3.smul, Vec3.sdiv, Vec3.dot,
      Vec3.length_squared, Vec3.neg, Vec3.zero]
  exact ⟨heval, (c4_list_scan (fun x : ℚ => if x = 1 then (1 : ℚ) else 0) hsq
    [Sphere.new ⟨0, 0, 0⟩ 1 none, Sphere.new ⟨0, 0, 2⟩ 1 none]
    ⟨⟨0, 0, 5⟩, ⟨0, 0, -1⟩, 0⟩ ⟨.fin (1 / 1000), .pinf⟩).1 _ heval⟩

theorem count_range (a n : ℕ) : (List.range n).count a = if a < n then 1 else 0 := by
  induction n with
  | zero => simp
  | succ m ih =>
      rw [List.range_succ, List.count_append, ih, List.count_singleton]
      by_cases h2 : m = a
      · subst h2
        rw [if_neg (lt_irrefl m), if_pos (Nat.lt_succ_self m)]
        simp
      · have hbe : (m == a) = false := by simp [h2]
        rw [hbe]
        simp only [Bool.false_eq_true, if_false, Nat.add_zero]
        by_cases h1 : a < m
        · rw [if_pos h1, if_pos (by omega)]
        · rw [if_neg h1, if_neg (by omega)]

theorem count_flatten (a : ℕ) : ∀ L : List (List ℕ),
    L.flatten.count a = (L.map (fun l => l.count a)).sum := by
  intro L
  induction L with
  | nil => simp
  | cons l L ih => simp [List.count_append, ih]

theorem sum_map_add_const (k : ℕ) (g : ℕ → ℕ) (l : List ℕ) :
    (l.map (fun i => k + g i)).sum = l.length * k + (l.map g).sum := by
  induction l with
  | nil => simp
  | cons a l ih =>
      simp only [List.map_cons, List.sum_cons, ih, List.length_cons]
      ring

theorem sum_map_mul_right (w : ℕ) (f : ℕ → ℕ) (l : List ℕ) :
    (l.map (fun i => f i * w)).sum = (l.map f).sum * w := by
  induction l with
  | nil => simp
  | cons a l ih =>
      simp only [List.map_cons, List.sum_cons, ih]
      ring

theorem sum_indicator_lt (m : ℕ) : ∀ W : ℕ,
    ((List.range W).map (fun i => if i < m then 1 else 0)).sum = min m W := by
  intro W
  induction W with
  | zero => simp
  | succ V ih =>
      rw [List.range_succ, List.map_append, List.sum_append, ih]
      simp only [List.map_cons, List.map_nil, List.sum_cons, List.sum_nil]
      by_cases h : V < m
      · rw [if_pos h]
        omega
      · rw [if_neg h]
        omega

theorem sum_indicator_eq_count (j0 : ℕ) (l : List ℕ) :
    (l.map (fun r => if r = j0 then 1 else 0)).sum = l.count j0 := by
  induction l with
  | nil => simp
  | cons a l ih =>
      rw [List.map_cons, List.sum_cons, ih, List.count_cons]
      by_cases h : a = j0 <;> simp [h, Nat.add_comm]

/-- The worker step count, written against the division identity. -/
theorem numSteps_eq (height workers i : ℕ) (hW : 1 ≤ workers) :
    numSteps height workers i =
      height / workers + (if i < height % workers then 1 else 0) := by
  have hdm := Nat.div_add_mod height workers
  have hmlt := Nat.mod_lt height (show 0 < workers from hW)
  simp only [numSteps, chunkSize]
  have hcomm : height / workers * workers = workers * (height / workers) :=
    mul_comm _ _
  by_cases h : height / workers * workers + i < height
  · rw [if_pos h, if_pos (by omega)]
  · rw [if_neg h, if_neg (by omega)]
    omega

/-- The rows of worker `i` are exactly the rows below `height` congruent
to `i` modulo the worker count. -/
theorem workerRows_mem (height workers i : ℕ) (hW : 1 ≤ workers)
    (hi : i < workers) (r : ℕ) :
    r ∈ workerRows height workers i ↔ (r % workers = i ∧ r < height) := by
  have hdmh := Nat.div_add_mod height workers
  have hmlt := Nat.mod_lt height (show 0 < workers from hW)
  simp only [workerRows, List.mem_map, List.mem_range]
  constructor
  · rintro ⟨c, hc, rfl⟩
    rw [numSteps_eq height workers i hW] at hc
    constructor
    · rw [mul_comm c workers, Nat.mul_add_mod, Nat.mod_eq_of_lt hi]
    · by_cases him : i < height % workers
      · rw [if_pos him] at hc
        have hck : c ≤ height / workers := by omega
        have h1 : c * workers ≤ height / workers * workers :=
          Nat.mul_le_mul_right _ hck
        have h2 : height / workers * workers = workers * (height / workers) :=
          mul_comm _ _
        omega
      · rw [if_neg him] at hc
        have hck : c + 1 ≤ height / workers := by omega
        have h1 : (c + 1) * workers ≤ height / workers * workers :=
          Nat.mul_le_mul_right _ hck
        have h2 : height / workers * workers = workers * (height / workers) :=
          mul_comm _ _
        have h3 : (c + 1) * workers = c * workers + workers := by ring
        omega
  · rintro ⟨hmod, hlt⟩
    have hdmr := Nat.div_add_mod r workers
    refine ⟨r / workers, ?_, ?_⟩
    · rw [numSteps_eq height workers i hW]
      by_cases him : i < height % workers
      · rw [if_pos him]
        by_contra hcon
        push_neg at hcon
        have h1 : workers * (height / workers + 1) ≤ workers * (r / workers) :=
          Nat.mul_le_mul_left _ (by omega)
        have h3 : workers * (height / workers + 1) =
            workers * (height / workers) + workers := by ring
        omega
      · rw [if_neg him]
        by_contra hcon
        push_neg at hcon
        have h1 : workers * (height / workers) ≤ workers * (r / workers) :=
          Nat.mul_le_mul_left _ (by omega)
        omega
    · have hcomm : r / workers * workers = workers * (r / workers) := mul_comm _ _
      omega

/-- Each worker row list has no duplicates, so counting is membership. -/
theorem workerRows_count (height workers i : ℕ) (hW : 1 ≤ workers)
    (hi : i < workers) (r : ℕ) :
    (workerRows height workers i).count r =
      if r % workers = i ∧ r < height then 1 else 0 := by
  have hinj : Function.Injective (fun c : ℕ => c * workers + i) := by
    intro c1 c2 h
    simp only at h
    have : c1 * workers = c2 * workers := by omega
    exact Nat.eq_of_mul_eq_mul_right (by omega) this
  by_cases hmem : r % workers = i ∧ r < height
  · rw [if_pos hmem]
    obtain ⟨c, hc, hcr⟩ := List.mem_map.mp
      ((workerRows_mem height workers i hW hi r).mpr hmem)
    rw [← hcr]
    simp only [workerRows]
    rw [List.count_map_of_injective _ _ hinj, count_range,
      if_pos (List.mem_range.mp hc)]
  · rw [if_neg hmem]
    exact List.count_eq_zero.mpr
      (fun hin => hmem ((workerRows_mem height workers i hW hi r).mp hin))

/-- One row block `row*width + col, col < width` contains `j` exactly
once when `j / width = row`, else not at all. -/
theorem count_block (width r j : ℕ) (hw : 0 < width) :
    ((List.range width).map (fun col => r * width + col)).count j =
      if j / width = r then 1 else 0 := by
  have hinj : Function.Injective (fun col : ℕ => r * width + col) := by
    intro a b h
    simpa using h
  by_cases hdiv : j / width = r
  · rw [if_pos hdiv]
    have hjlo : r * width ≤ j := by
      rw [← hdiv]
      have := Nat.div_add_mod j width
      have hcomm : j / width * width = width * (j / width) := mul_comm _ _
      omega
    have hjhi : j < r * width + width := by
      rw [← hdiv]
      have := Nat.div_add_mod j width
      have hm := Nat.mod_lt j hw
      have hcomm : j / width * width = width * (j / width) := mul_comm _ _
      omega
    have hj : j = r * width + (j - r * width) := by omega
    rw [hj, List.count_map_of_injective _ _ hinj, count_range, if_pos (by omega)]
  · rw [if_neg hdiv]
    refine List.count_eq_zero.mpr ?_
    intro hin
    obtain ⟨c, hc, hcr⟩ := List.mem_map.mp hin
    rw [List.mem_range] at hc
    apply hdiv
    rw [← hcr]
    exact Nat.div_eq_of_lt_le (by omega) (by
      have : (r + 1) * width = r * width + width := by ring
      omega)

/-- Worker `i` writes index `j` once when the row of `j` is one of its
rows, else not at all. -/
theorem workerWrites_count (width height workers i j : ℕ) (hW : 1 ≤ workers)
    (hi : i < workers) (hw : 0 < width) :
    (workerWrites width height workers i).count j =
      if j / width % workers = i ∧ j / width < height then 1 else 0 := by
  simp only [workerWrites]
  rw [count_flatten, List.map_map]
  have hmap : (workerRows height workers i).map
      ((fun l => l.count j) ∘ fun row => (List.range width).map
        (fun col => row * width + col)) =
      (workerRows height workers i).map (fun row => if row = j / width then 1 else 0) := by
    apply List.map_congr_left
    intro row _
    simp only [Function.comp]
    rw [count_block width row j hw]
    by_cases h : j / width = row
    · rw [if_pos h, if_pos h.symm]
    · rw [if_neg h, if_neg (fun hc => h hc.symm)]
  rw [hmap, sum_indicator_eq_count, workerRows_count height workers i hW hi]

/-- C9: after `render_multi`, every pixel index below `width * height` is
written exactly once; the write list has length `width * height`; worker
`i`'s rows are exactly the rows congruent to `i` mod the worker count,
these row sets are pairwise disjoint and they cover `[0, height)`. -/
theorem c9_render_multi (width height workers : ℕ) (hW : 1 ≤ workers) :
    (∀ j, j < width * height → (renderWrites width height workers).count j = 1)
    ∧ (renderWrites width height workers).length = width * height
    ∧ (∀ i, i < workers → ∀ r,
        r ∈ workerRows height workers i ↔ (r % workers = i ∧ r < height))
    ∧ (∀ i1 i2, i1 < workers → i2 < workers → i1 ≠ i2 → ∀ r,
        r ∈ workerRows height workers i1 → r ∉ workerRows height workers i2)
    ∧ (∀ r, r < height → ∃ i, i < workers ∧ r ∈ workerRows height workers i) := by
  have hdmh := Nat.div_add_mod height workers
  refine ⟨?_, ?_, ?_, ?_, ?_⟩
  · intro j hj
    have hw : 0 < width := by
      by_contra hc
      push_neg at hc
      interval_cases width
      omega
    have hrow : j / width < height := by
      have := Nat.div_add_mod j width
      have hcomm : width * (j / width) = j / width * width := mul_comm _ _
      by_contra hc
      push_neg at hc
      have h1 : width * height ≤ width * (j / width) := Nat.mul_le_mul_left _ hc
      have hm := Nat.mod_lt j hw
      have hcm : width * height = height * width := mul_comm _ _
      omega
    simp only [renderWrites]
    rw [count_flatten, List.map_map]
    have hmap : (List.range workers).map
        ((fun l => l.count j) ∘ fun i => workerWrites width height workers i) =
        (List.range workers).map
          (fun i => if i = j / width % workers then 1 else 0) := by
      apply List.map_congr_left
      intro i hi
      rw [List.mem_range] at hi
      simp only [Function.comp]
      rw [workerWrites_count width height workers i j hW hi hw]
      by_cases he : j / width % workers = i
      · rw [if_pos ⟨he, hrow⟩, if_pos he.symm]
      · rw [if_neg (fun hc => he hc.1), if_neg (fun hc => he hc.symm)]
    rw [hmap, sum_indicator_eq_count, count_range,
      if_pos (Nat.mod_lt _ (show 0 < workers from hW))]
  · simp only [renderWrites]
    rw [List.length_flatten, List.map_map]
    have hmap : (List.range workers).map
        (List.length ∘ fun i => workerWrites width height workers i) =
        (List.range workers).map
          (fun i => (height / workers + (if i < height % workers then 1 else 0)) * width) := by
      apply List.map_congr_left
      intro i hi
      rw [List.mem_range] at hi
      simp only [Function.comp, workerWrites]
      rw [List.length_flatten, List.map_map]
      have hlen : (workerRows height workers i).map
          (List.length ∘ fun row => (List.range width).map (fun col => row * width + col)) =
          (workerRows height workers i).map (fun _ => width) := by
        apply List.map_congr_left
        intro row _
        simp [Function.comp]
      rw [hlen]
      have : ((workerRows height workers i).map (fun _ => width)).sum =
          (workerRows height workers i).length * width := by
        induction workerRows height workers i with
        | nil => simp
        | cons a l ih => simp [ih]; ring
      rw [this]
      simp only [workerRows, List.length_map, List.length_range]
      rw [numSteps_eq height workers i hW]
    rw [hmap, sum_map_mul_right, sum_map_add_const, List.length_range,
      sum_indicator_lt]
    have hmlt := Nat.mod_lt height (show 0 < workers from hW)
    have hmin : min (height % workers) workers = height % workers := by omega
    rw [hmin, hdmh]
    exact mul_comm height width
  · intro i hi r
    exact workerRows_mem height workers i hW hi r
  · intro i1 i2 h1 h2 hne r hr1 hr2
    have e1 := ((workerRows_mem height workers i1 hW h1 r).mp hr1).1
    have e2 := ((workerRows_mem height workers i2 hW h2 r).mp hr2).1
    exact hne (e1 ▸ e2 ▸ rfl)
  · intro r hr
    refine ⟨r % workers, Nat.mod_lt _ (show 0 < workers from hW), ?_⟩
    exact (workerRows_mem height workers (r % workers) hW
      (Nat.mod_lt _ (show 0 < workers from hW)) r).mpr ⟨rfl, hr⟩

/-- C9 witness: three workers on a 2 x 5 image. -/
theorem c9_witness :
    (1 ≤ 3)
    ∧ ((∀ j, j < 2 * 5 → (renderWrites 2 5 3).count j = 1)
      ∧ (renderWrites 2 5 3).length = 2 * 5
      ∧ (∀ i, i < 3 → ∀ r, r ∈ workerRows 5 3 i ↔ (r % 3 = i ∧ r < 5))
      ∧ (∀ i1 i2, i1 < 3 → i2 < 3 → i1 ≠ i2 → ∀ r,
          r ∈ workerRows 5 3 i1 → r ∉ workerRows 5 3 i2)
      ∧ (∀ r, r < 5 → ∃ i, i < 3 ∧ r ∈ workerRows 5 3 i)) :=
  ⟨by omega, c9_render_multi 2 5 3 (by omega)⟩

theorem intvLe_refl (a : Interval) : intvLe a a = true := by
  simp [intvLe, ele_refl]

theorem intvLe_trans {a b c : Interval} (h1 : intvLe a b = true)
    (h2 : intvLe b c = true) : intvLe a c = true := by
  simp only [intvLe, Bool.and_eq_true] at *
  exact ⟨ele_trans h2.1 h1.1, ele_trans h1.2 h2.2⟩

theorem boxLe_refl (a : AABB) : boxLe a a = true := by
  simp [boxLe, intvLe_refl]

theorem boxLe_trans {a b c : AABB} (h1 : boxLe a b = true)
    (h2 : boxLe b c = true) : boxLe a c = true := by
  simp only [boxLe, Bool.and_eq_true] at *
  exact ⟨⟨intvLe_trans h1.1.1 h2.1.1, intvLe_trans h1.1.2 h2.1.2⟩,
    intvLe_trans h1.2 h2.2⟩

theorem intvLe_combine_left (a b : Interval) : intvLe a (a.combine_new b) = true := by
  simp only [intvLe, Interval.combine_new, Bool.and_eq_true]
  constructor
  · split
    · exact ele_refl _
    · next h => exact ele_iff_not_elt.mpr (by simpa using h)
  · split
    · exact ele_refl _
    · next h => exact ele_iff_not_elt.mpr (by simpa using h)

theorem intvLe_combine_right (a b : Interval) : intvLe b (a.combine_new b) = true := by
  simp only [intvLe, Interval.combine_new, Bool.and_eq_true]
  constructor
  · split
    · next h => exact ele_of_elt h
    · exact ele_refl _
  · split
    · next h => exact ele_of_elt h
    · exact ele_refl _

theorem boxLe_combine_left (a b : AABB) : boxLe a (a.combine_new b) = true := by
  simp [boxLe, AABB.combine_new, intvLe_combine_left]

theorem boxLe_combine_right (a b : AABB) : boxLe b (a.combine_new b) = true := by
  simp [boxLe, AABB.combine_new, intvLe_combine_right]

theorem insideBox_mono {p : Vec3} {a b : AABB} (hp : insideBox p a = true)
    (hle : boxLe a b = true) : insideBox p b = true := by
  simp only [insideBox, boxLe, intvLe, Interval.surrounds, Bool.and_eq_true] at *
  exact ⟨⟨⟨elt_of_ele_of_elt hle.1.1.1 hp.1.1.1, elt_of_elt_of_ele hp.1.1.2 hle.1.1.2⟩,
      elt_of_ele_of_elt hle.1.2.1 hp.1.2.1, elt_of_elt_of_ele hp.1.2.2 hle.1.2.2⟩,
    elt_of_ele_of_elt hle.2.1 hp.2.1, elt_of_elt_of_ele hp.2.2 hle.2.2⟩

theorem sizeT_left {c : Hittable} (r : Option Hittable) (b : AABB) :
    sizeT c < sizeT (.node (some c) r b) := by
  cases r <;> simp [sizeT] <;> omega

theorem sizeT_right {c : Hittable} (l : Option Hittable) (b : AABB) :
    sizeT c < sizeT (.node l (some c) b) := by
  cases l <;> simp [sizeT] <;> omega

theorem sizeT_pos (t : Hittable) : 1 ≤ sizeT t := by
  cases t with
  | sphere s => simp [sizeT]
  | node l r b => cases l <;> cases r <;> simp [sizeT] <;> omega

/-- The equation for `wfB` at a node, with the children still abstract. -/
theorem wfB_node (l r : Option Hittable) (b : AABB) :
    wfB (.node l r b) =
      ((match l with | some c => wfB c && boxLe c.bounding_box b | none => true) &&
       (match r with | some c => wfB c && boxLe c.bounding_box b | none => true)) := by
  cases l <;> cases r <;> simp [wfB]

/-- The equation for `leaves` at a node, with the children abstract. -/
theorem leaves_node (l r : Option Hittable) (b : AABB) :
    leaves (.node l r b) = leavesO l ++ leavesO r := by
  cases l <;> cases r <;> simp [leaves, leavesO]

/-- The equation for `BvhNode::hit` at a node, with the children
abstract. -/
theorem hit_node (sq : ℚ → ℚ) (l r : Option Hittable) (bbox : AABB)
    (ray : Ray) (lo hi : Ext) :
    Hittable.hit sq (.node l r bbox) ray ⟨lo, hi⟩ =
      if AABB.hit bbox ray ⟨lo, hi⟩ = false then none
      else nodeCombine (hitO sq l ray ⟨lo, hi⟩)
        (hitO sq r ray ⟨lo, tmaxOf (hitO sq l ray ⟨lo, hi⟩) hi⟩) := by
  cases l <;> cases r <;> rfl

/-- Structural induction over `Hittable` trees through the optional
children, by strong induction on the node count. -/
theorem Hittable.ind (P : Hittable → Prop)
    (hsp : ∀ s, P (.sphere s))
    (hnd : ∀ l r b, (∀ c, l = some c → P c) → (∀ c, r = some c → P c) →
      P (.node l r b)) :
    ∀ t, P t := by
  have key : ∀ n t, sizeT t ≤ n → P t := by
    intro n
    induction n with
    | zero =>
        intro t ht
        have := sizeT_pos t
        omega
    | succ n ih =>
        intro t ht
        cases t with
        | sphere s => exact hsp s
        | node l r b =>
            refine hnd l r b ?_ ?_
            · intro c hc
              apply ih
              subst hc
              have := sizeT_left (c := c) r b
              omega
            · intro c hc
              apply ih
              subst hc
              have := sizeT_right (c := c) l b
              omega
  exact fun t => key (sizeT t) t le_rfl

/-- In a well-formed tree every leaf box is inside the root box. -/
theorem leaf_box_le : ∀ t : Hittable, wfB t = true →
    ∀ s ∈ leaves t, boxLe s.bbox t.bounding_box = true := by
  refine Hittable.ind _ ?_ ?_
  · intro s _ s' hs'
    simp only [leaves, List.mem_singleton] at hs'
    subst hs'
    exact boxLe_refl _
  · intro l r b ihl ihr hwf s hs
    rw [wfB_node] at hwf
    simp only [Bool.and_eq_true] at hwf
    rw [leaves_node] at hs
    simp only [List.mem_append] at hs
    simp only [Hittable.bounding_box]
    rcases hs with hs | hs
    · cases hl : l with
      | none => rw [hl] at hs; simp [leavesO] at hs
      | some c =>
          rw [hl] at hs hwf
          simp only [leavesO] at hs
          simp only [Bool.and_eq_true] at hwf
          exact boxLe_trans (ihl c hl hwf.1.1 s hs) hwf.1.2
    · cases hr : r with
      | none => rw [hr] at hs; simp [leavesO] at hs
      | some c =>
          rw [hr] at hs hwf
          simp only [leavesO] at hs
          simp only [Bool.and_eq_true] at hwf
          exact boxLe_trans (ihr c hr hwf.2.1 s hs) hwf.2.2

/-- `BvhNode::split` never finishes on the empty list. -/
theorem splitF_nil : ∀ fuel : ℕ, splitF fuel ([] : List Sphere) = none := by
  intro fuel
  induction fuel with
  | zero => simp [splitF]
  | succ f ih => simp [splitF, ih]

/-- The well-formedness of a node built from a split pair. -/
theorem wfB_pair_node (p1 p2 : Option Hittable)
    (hw1 : wfO p1 = true) (hw2 : wfO p2 = true) :
    wfB (.node p1 p2 ((boxOf p1).combine_new (boxOf p2))) = true := by
  rw [wfB_node]
  simp only [Bool.and_eq_true]
  constructor
  · cases hc : p1 with
    | none => rfl
    | some c =>
        rw [hc] at hw1
        simp only [wfO] at hw1
        simp only [Bool.and_eq_true]
        refine ⟨hw1, ?_⟩
        have hb : c.bounding_box = boxOf (some c) := rfl
        rw [hb, ← hc]
        exact boxLe_combine_left _ _
  · cases hc : p2 with
    | none => rfl
    | some c =>
        rw [hc] at hw2
        simp only [wfO] at hw2
        simp only [Bool.and_eq_true]
        refine ⟨hw2, ?_⟩
        have hb : c.bounding_box = boxOf (some c) := rfl
        rw [hb, ← hc]
        exact boxLe_combine_right _ _

/-- Every tree pair `split` produces carries a permutation of its input
at the leaves, and both children are well-formed. -/
theorem splitF_wf_leaves : ∀ (fuel : ℕ) (l : List Sphere)
    (p : Option Hittable × Option Hittable), splitF fuel l = some p →
    (leavesO p.1 ++ leavesO p.2).Perm l ∧ wfO p.1 = true ∧ wfO p.2 = true := by
  intro fuel
  induction fuel with
  | zero =>
      intro l p hp
      match l with
      | [] => rw [splitF_nil] at hp; exact absurd hp (by simp)
      | [a] =>
          simp only [splitF, Option.some.injEq] at hp
          subst hp
          exact ⟨by simp [leavesO, leaves], by simp [wfO, wfB], by simp [wfO]⟩
      | [a, b] =>
          simp only [splitF, Option.some.injEq] at hp
          subst hp
          exact ⟨by simpa [leavesO, leaves] using List.Perm.swap a b [],
            by simp [wfO, wfB], by simp [wfO, wfB]⟩
      | a :: b :: c :: rest => simp [splitF] at hp
  | succ f ih =>
      intro l p hp
      match l with
      | [] => rw [splitF_nil] at hp; exact absurd hp (by simp)
      | [a] =>
          simp only [splitF, Option.some.injEq] at hp
          subst hp
          exact ⟨by simp [leavesO, leaves], by simp [wfO, wfB], by simp [wfO]⟩
      | [a, b] =>
          simp only [splitF, Option.some.injEq] at hp
          subst hp
          exact ⟨by simpa [leavesO, leaves] using List.Perm.swap a b [],
            by simp [wfO, wfB], by simp [wfO, wfB]⟩
      | a :: b :: c :: rest =>
          rw [show splitF (f + 1) (a :: b :: c :: rest) =
              (match splitF f ((a :: b :: c :: rest).take
                  ((a :: b :: c :: rest).length / 2)),
                splitF f ((a :: b :: c :: rest).drop
                  ((a :: b :: c :: rest).length / 2)) with
              | some lp, some rp =>
                  some (some (.node lp.1 lp.2
                      ((boxOf lp.1).combine_new (boxOf lp.2))),
                    some (.node rp.1 rp.2
                      ((boxOf rp.1).combine_new (boxOf rp.2))))
              | _, _ => none) from rfl] at hp
          cases hlp : splitF f ((a :: b :: c :: rest).take
              ((a :: b :: c :: rest).length / 2)) with
          | none => rw [hlp] at hp; exact absurd hp (by simp)
          | some lp =>
              cases hrp : splitF f ((a :: b :: c :: rest).drop
                  ((a :: b :: c :: rest).length / 2)) with
              | none => rw [hlp, hrp] at hp; exact absurd hp (by simp)
              | some rp =>
                  rw [hlp, hrp] at hp
                  simp only [Option.some.injEq] at hp
                  subst hp
                  obtain ⟨hpl, hwl1, hwl2⟩ := ih _ _ hlp
                  obtain ⟨hpr, hwr1, hwr2⟩ := ih _ _ hrp
                  refine ⟨?_, ?_, ?_⟩
                  · simp only [leavesO, leaves_node]
                    have hcat : (a :: b :: c :: rest).take
                        ((a :: b :: c :: rest).length / 2) ++
                        (a :: b :: c :: rest).drop
                        ((a :: b :: c :: rest).length / 2) =
                        a :: b :: c :: rest :=
                      List.take_append_drop _ _
                    exact hcat ▸ (hpl.append hpr)
                  · simp only [wfO]
                    exact wfB_pair_node lp.1 lp.2 hwl1 hwl2
                  · simp only [wfO]
                    exact wfB_pair_node rp.1 rp.2 hwr1 hwr2

/-- `BvhNode::new` on a non-empty (pre-permuted) list yields a
well-formed tree whose leaves are a permutation of the input. -/
theorem bvhNew_wf_leaves (objects : List Sphere) (hne : objects ≠ []) :
    wfB (bvhNew objects) = true ∧ (leaves (bvhNew objects)).Perm objects := by
  have hsome := splitF_isSome_of_le hne le_rfl
  rw [Option.isSome_iff_exists] at hsome
  obtain ⟨p, hp⟩ := hsome
  obtain ⟨p1, p2⟩ := p
  obtain ⟨hperm, hw1, hw2⟩ := splitF_wf_leaves _ _ _ hp
  simp only [bvhNew, hp]
  constructor
  · exact wfB_pair_node p1 p2 hw1 hw2
  · rw [leaves_node]
    exact hperm

theorem nodeCombine_none_left (x : Option HitResult) : nodeCombine none x = x := by
  cases x <;> rfl

theorem memberTs_append (sq : ℚ → ℚ) (A B : List Sphere) (ray : Ray) (i : Interval) :
    memberTs sq (A ++ B) ray i = memberTs sq A ray i ++ memberTs sq B ray i := by
  simp [memberTs, List.filterMap_append]

/-- Every member-hit `t` lies strictly below the interval top. -/
theorem memberTs_lt {sq : ℚ → ℚ} {ray : Ray} {lo m : Ext} {objs : List Sphere}
    {t : ℚ} (ht : t ∈ memberTs sq objs ray ⟨lo, m⟩) : elt (.fin t) m = true := by
  simp only [memberTs, List.mem_filterMap] at ht
  obtain ⟨s, hsm, hh⟩ := ht
  cases hh' : Sphere.hit sq s ray ⟨lo, m⟩ with
  | none => rw [hh'] at hh; exact absurd hh (by simp [hitT])
  | some h =>
      rw [hh'] at hh
      simp only [hitT, Option.map_some', Option.some.injEq] at hh
      obtain ⟨q, hq, hsur, -⟩ := sphere_hit_inv hh'
      have hts : h.record.t_value = q := by rw [hq]; rfl
      have hsp : elt lo (.fin q) = true ∧ elt (.fin q) m = true := by
        have hsurd : (elt lo (.fin q) && elt (.fin q) m) = true := hsur
        simpa using hsurd
      rw [← hh, hts]
      exact hsp.2

/-- A sphere hit inside a narrowed interval is the same hit in the wide
interval. -/
theorem sphere_hit_widen (sq : ℚ → ℚ) (hsq : ∀ x, 0 ≤ x → 0 ≤ sq x)
    (s : Sphere) (ray : Ray) (lo : Ext) {m hi0 : Ext} (hm : ele m hi0 = true)
    {h : HitResult} (hh : Sphere.hit sq s ray ⟨lo, m⟩ = some h) :
    Sphere.hit sq s ray ⟨lo, hi0⟩ = some h := by
  have heq := sphere_hit_narrow sq hsq s ray lo hm
  rw [hh] at heq
  cases hw : Sphere.hit sq s ray ⟨lo, hi0⟩ with
  | none => rw [hw] at heq; exact absurd heq (by simp)
  | some h' =>
      rw [hw] at heq
      by_cases hf : elt (.fin h'.record.t_value) m = true
      · simp only [hf, if_true, Option.some.injEq] at heq
        rw [heq]
      · simp [hf] at heq

/-- The BVH query equals the minimum member hit on well-formed trees
whose member hit points land strictly inside their leaf boxes. -/
theorem tree_hit_min (sq : ℚ → ℚ) (hsq : ∀ x, 0 ≤ x → 0 ≤ sq x)
    (ray : Ray) (lo hi0 : Ext) :
    ∀ t : Hittable, wfB t = true →
    (∀ s ∈ leaves t, ∀ h, Sphere.hit sq s ray ⟨lo, hi0⟩ = some h →
        insideBox (ray.at h.record.t_value) s.bbox = true) →
    ∀ m : Ext, ele m hi0 = true →
    hitT (Hittable.hit sq t ray ⟨lo, m⟩) =
      optMin (memberTs sq (leaves t) ray ⟨lo, m⟩) := by
  refine Hittable.ind _ ?_ ?_
  · intro s _ _ m _
    show hitT (Sphere.hit sq s ray ⟨lo, m⟩) =
      optMin (memberTs sq [s] ray ⟨lo, m⟩)
    cases hh : Sphere.hit sq s ray ⟨lo, m⟩ <;>
      simp [memberTs, hitT, hh, optMin]
  · intro l r b ihl ihr hwf hng m hm
    have hchild : ∀ o : Option Hittable,
        (∀ c, o = some c → wfB c = true →
          (∀ s ∈ leaves c, ∀ h, Sphere.hit sq s ray ⟨lo, hi0⟩ = some h →
            insideBox (ray.at h.record.t_value) s.bbox = true) →
          ∀ m' : Ext, ele m' hi0 = true →
          hitT (Hittable.hit sq c ray ⟨lo, m'⟩) =
            optMin (memberTs sq (leaves c) ray ⟨lo, m'⟩)) →
        wfO o = true →
        (∀ s ∈ leavesO o, ∀ h, Sphere.hit sq s ray ⟨lo, hi0⟩ = some h →
            insideBox (ray.at h.record.t_value) s.bbox = true) →
        ∀ m' : Ext, ele m' hi0 = true →
        hitT (hitO sq o ray ⟨lo, m'⟩) =
          optMin (memberTs sq (leavesO o) ray ⟨lo, m'⟩) := by
      intro o iho hwo hno m' hm'
      cases o with
      | none => rfl
      | some c => exact iho c rfl hwo hno m' hm'
    rw [hit_node, leaves_node]
    by_cases hbox : AABB.hit b ray ⟨lo, m⟩ = false
    · rw [if_pos hbox]
      have hemp : memberTs sq (leavesO l ++ leavesO r) ray ⟨lo, m⟩ = [] := by
        simp only [memberTs]
        rw [List.filterMap_eq_nil_iff]
        intro s hsm
        cases hh : Sphere.hit sq s ray ⟨lo, m⟩ with
        | none => simp [hitT, hh]
        | some h =>
            exfalso
            have hwide := sphere_hit_widen sq hsq s ray lo hm hh
            have hsmem : s ∈ leaves (.node l r b) := by
              rw [leaves_node]; exact hsm
            have hin : insideBox (ray.at h.record.t_value) s.bbox = true :=
              hng s hsmem h hwide
            have hble : boxLe s.bbox (Hittable.bounding_box (.node l r b)) = true :=
              leaf_box_le _ hwf s hsmem
            have hinb : insideBox (ray.at h.record.t_value) b = true :=
              insideBox_mono hin hble
            obtain ⟨q, hq, hsur, -⟩ := sphere_hit_inv hh
            have hts : h.record.t_value = q := by rw [hq]; rfl
            have hsp : elt lo (.fin q) = true ∧ elt (.fin q) m = true := by
              have hsurd : (elt lo (.fin q) && elt (.fin q) m) = true := hsur
              simpa using hsurd
            have hhit := AABB.hit_of_inside b ray ⟨lo, m⟩ q
              (by rw [← hts]; exact hinb) hsp.1 hsp.2
            rw [hhit] at hbox
            exact absurd hbox (by simp)
      rw [hemp]
      rfl
    · rw [if_neg hbox]
      rw [wfB_node] at hwf
      obtain ⟨hwl, hwr⟩ : _ ∧ _ := by simpa using hwf
      have hwfl : wfO l = true := by
        cases l with
        | none => rfl
        | some c =>
            have h' : wfB c = true ∧ boxLe c.bounding_box b = true := by
              simpa using hwl
            simpa [wfO] using h'.1
      have hwfr : wfO r = true := by
        cases r with
        | none => rfl
        | some c =>
            have h' : wfB c = true ∧ boxLe c.bounding_box b = true := by
              simpa using hwr
            simpa [wfO] using h'.1
      have hngl : ∀ s ∈ leavesO l, ∀ h,
          Sphere.hit sq s ray ⟨lo, hi0⟩ = some h →
          insideBox (ray.at h.record.t_value) s.bbox = true := by
        intro s hsm
        exact hng s (by rw [leaves_node]; exact List.mem_append_left _ hsm)
      have hngr : ∀ s ∈ leavesO r, ∀ h,
          Sphere.hit sq s ray ⟨lo, hi0⟩ = some h →
          insideBox (ray.at h.record.t_value) s.bbox = true := by
        intro s hsm
        exact hng s (by rw [leaves_node]; exact List.mem_append_right _ hsm)
      rw [memberTs_append]
      have hL : hitT (hitO sq l ray ⟨lo, m⟩) =
          optMin (memberTs sq (leavesO l) ray ⟨lo, m⟩) :=
        hchild l ihl hwfl hngl m hm
      cases hLH : hitO sq l ray ⟨lo, m⟩ with
      | none =>
          rw [hLH] at hL
          have hMLnil : memberTs sq (leavesO l) ray ⟨lo, m⟩ = [] :=
            optMin_eq_none_iff.mp hL.symm
          have hR : hitT (hitO sq r ray ⟨lo, m⟩) =
              optMin (memberTs sq (leavesO r) ray ⟨lo, m⟩) :=
            hchild r ihr hwfr hngr m hm
          rw [hMLnil, List.nil_append]
          simp only [tmaxOf, nodeCombine_none_left]
          exact hR
      | some ha =>
          rw [hLH] at hL
          simp only [hitT, Option.map_some'] at hL
          obtain ⟨hamem, hamin⟩ := optMin_mem hL.symm
          have helt : elt (.fin ha.record.t_value) m = true := memberTs_lt hamem
          have hR : hitT (hitO sq r ray ⟨lo, .fin ha.record.t_value⟩) =
              optMin (memberTs sq (leavesO r) ray ⟨lo, .fin ha.record.t_value⟩) :=
            hchild r ihr hwfr hngr (.fin ha.record.t_value)
              (ele_trans (ele_of_elt helt) hm)
          rw [memberTs_narrow sq hsq ray lo (ele_of_elt helt) (leavesO r)] at hR
          simp only [tmaxOf]
          cases hRH : hitO sq r ray ⟨lo, .fin ha.record.t_value⟩ with
          | none =>
              rw [hRH] at hR
              have hfil : (memberTs sq (leavesO r) ray ⟨lo, m⟩).filter
                  (fun t => elt (.fin t) (.fin ha.record.t_value)) = [] :=
                optMin_eq_none_iff.mp hR.symm
              have hge : ∀ t ∈ memberTs sq (leavesO r) ray ⟨lo, m⟩,
                  ha.record.t_value ≤ t := by
                intro t htm
                have hn := List.filter_eq_nil_iff.mp hfil t htm
                simp only [elt_fin_fin, decide_eq_true_eq] at hn
                exact le_of_not_lt (by simpa using hn)
              show hitT (nodeCombine (some ha) none) = _
              simp only [nodeCombine, hitT, Option.map_some']
              refine (optMin_of_mem (List.mem_append_left _ hamem) ?_).symm
              intro y hy
              rcases List.mem_append.mp hy with hy | hy
              · exact hamin y hy
              · exact hge y hy
          | some hb =>
              rw [hRH] at hR
              simp only [hitT, Option.map_some'] at hR
              obtain ⟨hbmem, hbmin⟩ := optMin_mem hR.symm
              have hbMR := List.mem_of_mem_filter hbmem
              have hblt : hb.record.t_value < ha.record.t_value := by
                have hp := List.of_mem_filter hbmem
                simpa [elt_fin_fin] using hp
              show hitT (nodeCombine (some ha) (some hb)) = _
              simp only [nodeCombine]
              rw [if_neg (not_lt.mpr (le_of_lt hblt))]
              simp only [hitT, Option.map_some']
              refine (optMin_of_mem (List.mem_append_right _ hbMR) ?_).symm
              intro y hy
              rcases List.mem_append.mp hy with hy | hy
              · exact (le_of_lt hblt).trans (hamin y hy)
              · by_cases hylt : y < ha.record.t_value
                · exact hbmin y (List.mem_filter.mpr ⟨hy, by simpa [elt_fin_fin]⟩)
                · exact (le_of_lt hblt).trans (le_of_not_lt hylt)

/-- C1 counterexample: the claimed unconditional equivalence fails.  A
tangent ray parallel to the `y` and `z` slabs: the linear scan reports
the tangent (double-root) hit at `t = 2`, but in the BVH's slab test the
parallel axis produces a NaN crossing parameter (`0/0`) whose guarded
partner collapses the running interval, so the node box rejects the ray
and the tree misses. -/
theorem c1_counterexample :
    hitT (Hittable.hit (fun _ : ℚ => (0 : ℚ))
        (bvhNew [Sphere.new ⟨0, 0, 0⟩ 1 none])
        ⟨⟨2, 1, 0⟩, ⟨-1, 0, 0⟩, 0⟩ Interval.universe) = none
    ∧ hitT (listHit (fun _ : ℚ => (0 : ℚ)) [Sphere.new ⟨0, 0, 0⟩ 1 none]
        ⟨⟨2, 1, 0⟩, ⟨-1, 0, 0⟩, 0⟩ Interval.universe) = some 2 := by
  constructor
  · have htree : bvhNew [Sphere.new ⟨0, 0, 0⟩ 1 none] =
        .node (some (.sphere (Sphere.new ⟨0, 0, 0⟩ 1 none))) none
          ((boxOf (some (.sphere (Sphere.new ⟨0, 0, 0⟩ 1 none)))).combine_new
            (boxOf none)) := rfl
    rw [show Interval.universe = (⟨.ninf, .pinf⟩ : Interval) from rfl, htree,
      hit_node]
    have hcond : AABB.hit
        ((boxOf (some (.sphere (Sphere.new ⟨0, 0, 0⟩ 1 none)))).combine_new
          (boxOf none)) ⟨⟨2, 1, 0⟩, ⟨-1, 0, 0⟩, 0⟩ ⟨.ninf, .pinf⟩ = false := by
      norm_num [boxOf, Hittable.bounding_box, Sphere.new, AABB.emptyB,
        Interval.emptyI, AABB.combine_new, Interval.combine_new, AABB.hit,
        slabFold, slabStep, ediv, esub, qdivE, updMin, updMax, elt, ele, fdlt]
    rw [if_pos hcond]
    rfl
  · norm_num [listHit, listHitAux, Sphere.hit, Sphere.disc, Sphere.b_half,
      Sphere.oc, Sphere.cur_center, Sphere.new, Vec3.dot, Vec3.sub,
      Vec3.length_squared, rootSelect, Sphere.root1, Sphere.root2, qdivE,
      surroundsF, Interval.surrounds, Interval.universe, elt, hitT,
      Sphere.mkHit, HitRecord.make, Ray.at, Vec3.add, Vec3.smul, Vec3.sdiv]

/-- C1 (amended): the BVH query returns the same hit `t` as the linear
scan — and misses exactly when the scan misses — for every member list,
every builder ordering (the source pre-sorts by a random axis), every
ray, and every `t`-interval, PROVIDED every member hit point over the
query interval lies strictly inside its sphere's bounding box; tangent
or slab-parallel grazing hits on the box boundary (as in the
counterexample) are excluded.  In particular the right child's narrowed
interval never changes the result. -/
theorem c1_amended (sq : ℚ → ℚ) (hsq : ∀ x, 0 ≤ x → 0 ≤ sq x)
    (objects objects' : List Sphere) (hperm : objects.Perm objects')
    (hne : objects' ≠ []) (ray : Ray) (t_range : Interval)
    (hng : ∀ s ∈ objects, ∀ h, Sphere.hit sq s ray t_range = some h →
        insideBox (ray.at h.record.t_value) s.bbox = true) :
    hitT (Hittable.hit sq (bvhNew objects') ray t_range) =
      hitT (listHit sq objects ray t_range) := by
  obtain ⟨hwf, hleaves⟩ := bvhNew_wf_leaves objects' hne
  have hlp : (leaves (bvhNew objects')).Perm objects :=
    hleaves.trans hperm.symm
  rw [listHit_minT sq hsq objects ray t_range]
  have heta : (⟨t_range.min, t_range.max⟩ : Interval) = t_range := rfl
  have htm := tree_hit_min sq hsq ray t_range.min t_range.max
    (bvhNew objects') hwf
    (by
      intro s hs h hh
      rw [heta] at hh
      exact hng s (hlp.mem_iff.mp hs) h hh)
    t_range.max (ele_refl _)
  rw [heta] at htm
  rw [htm]
  simp only [memberTs]
  exact optMin_perm (hlp.filterMap _)

/-- C1 witness for the amended theorem: one unit sphere, a ray hitting
it strictly inside its box at `t = 21/5`; the BVH and the scan agree. -/
theorem c1_witness :
    hitT (Hittable.hit (fun x : ℚ => if x = 16 / 25 then (4 / 5 : ℚ) else 0)
        (bvhNew [Sphere.new ⟨0, 0, 0⟩ 1 none])
        ⟨⟨3 / 5, 0, 5⟩, ⟨0, 0, -1⟩, 0⟩ Interval.universe) =
      hitT (listHit (fun x : ℚ => if x = 16 / 25 then (4 / 5 : ℚ) else 0)
        [Sphere.new ⟨0, 0, 0⟩ 1 none]
        ⟨⟨3 / 5, 0, 5⟩, ⟨0, 0, -1⟩, 0⟩ Interval.universe) := by
  apply c1_amended
  · intro x hx
    dsimp only
    split <;> norm_num
  · exact List.Perm.refl _
  · simp
  · intro s hs h hh
    rw [List.mem_singleton.mp hs] at hh ⊢
    have hval : Sphere.hit (fun x : ℚ => if x = 16 / 25 then (4 / 5 : ℚ) else 0)
        (Sphere.new ⟨0, 0, 0⟩ 1 none) ⟨⟨3 / 5, 0, 5⟩, ⟨0, 0, -1⟩, 0⟩
        Interval.universe =
        some (Sphere.mkHit (Sphere.new ⟨0, 0, 0⟩ 1 none)
          ⟨⟨3 / 5, 0, 5⟩, ⟨0, 0, -1⟩, 0⟩ (21 / 5)) := by
      norm_num [Sphere.hit, Sphere.disc, Sphere.b_half, Sphere.oc,
        Sphere.cur_center, Sphere.new, Vec3.dot, Vec3.sub, Vec3.length_squared,
        rootSelect, Sphere.root1, Sphere.root2, qdivE, surroundsF,
        Interval.surrounds, Interval.universe, elt]
    rw [hval] at hh
    injection hh with heq
    rw [← heq, mkHit_t]
    norm_num [insideBox, Sphere.new, Interval.surrounds, Ray.at, Vec3.add,
      Vec3.smul, elt]

end RT
